import Mathlib

/-!
# breakkey.cpp: repeating-key XOR breaker

A shallow embedding of `src/breakkey.cpp` and proofs about its functions.

Modelling conventions.

* `std::string` is a list of bytes; a byte (`char`) is stored as its bit
  pattern, a number below 256.
* `char` is signed.  Where the source does arithmetic on a `char` it is first
  promoted to `int` by sign extension (`promote`), the value being kept as a
  32-bit two's-complement pattern; storing an `int` back into a `char` keeps the
  low eight bits (`toChar`).
* `size_t` is a 64-bit unsigned and `int` a 32-bit signed integer.  A `size_t`
  value is a natural number below `2^64`; where the source computes a `size_t`
  that can pass `2^64 - 1` the result is reduced modulo `2^64` (the sum of
  line 85, the `++keysize` of line 71).  The other `size_t` expressions
  (indices, products `i * keysize`, quotients) are bounded by the length of a
  string and cannot wrap.
* The `int distance` of `hamming_distance` receives a `size_t` sum on line 25:
  the sum is converted back to `int`, which keeps it modulo `2^32` in the range
  `-2^31 .. 2^31 - 1` (`toInt32`).
* The accumulator `val` of `base64_decode` is a 32-bit `int` that the source
  never masks: it is kept as a bit pattern and its arithmetic wraps modulo
  `2^32`.
* A `std::string` holds fewer than `2^64` bytes, and the strings that a run
  holds in memory (the ciphertext and the key, of up to 40 bytes in `main`)
  have fewer than `2^64` bytes together; a statement that needs such a bound
  has it as a hypothesis.
* Operations whose behaviour is undefined in C++ (division or modulo by zero,
  an index outside a container, dereferencing `end()`) make the embedded
  function return `none`.
* `double` values are modelled by `Dbl`: a rational number, an infinity or NaN.
  Sums of small integers are exact in `double` (every integer below `2^53` is
  representable), so they are computed exactly; each floating-point division
  is rounded to the nearest `double`, ties to even (`roundToDouble`).
-/

namespace BreakKey

/-! ## Bytes and strings -/

/-- A `char`, stored as its bit pattern. -/
abbrev Byte := Fin 256

/-- A `std::string`. -/
abbrev Str := List Byte

/-- Integral promotion of a signed `char` to `int` (sign extension), as a
32-bit two's-complement bit pattern. -/
def promote (c : Byte) : Nat :=
  if c.val < 128 then c.val else c.val + 0xFFFFFF00

/-- Conversion of an `int` bit pattern to `char`: the low eight bits. -/
def toChar (v : Nat) : Byte := ⟨v % 256, Nat.mod_lt _ (by decide)⟩

/-- The number of 1-bits among bits 0..7 of `v`: `bitset<8>(v).count()`. -/
def bitset8_count (v : Nat) : Nat :=
  ((List.range 8).filter (fun i => v.testBit i)).length

/-! ## The `double` values of the program -/

/-- A value of type `double`: a finite number, an infinity, or NaN. -/
inductive Dbl where
  | fin (q : ℚ)
  | pinf
  | ninf
  | nan
  deriving DecidableEq

namespace Dbl

/-- The `<` of `double`: false whenever an operand is NaN. -/
def lt : Dbl → Dbl → Bool
  | fin a, fin b => decide (a < b)
  | fin _, pinf => true
  | ninf, fin _ => true
  | ninf, pinf => true
  | _, _ => false

/-- The `<=` of `double`: false whenever an operand is NaN. -/
def le : Dbl → Dbl → Bool
  | fin a, fin b => decide (a ≤ b)
  | fin _, pinf => true
  | ninf, fin _ => true
  | ninf, pinf => true
  | pinf, pinf => true
  | ninf, ninf => true
  | _, _ => false

/-- Unary minus. -/
def neg : Dbl → Dbl
  | fin a => fin (-a)
  | pinf => ninf
  | ninf => pinf
  | nan => nan

end Dbl

/-- The largest finite `double`: `numeric_limits<double>::max()`. -/
def DBL_MAX : ℚ := (2 ^ 53 - 1) * 2 ^ 971

/-- The position of the leading 1-bit of `m`, by halving `fuel` times. -/
def ilog2Aux : Nat → Nat → Nat
  | 0, _ => 0
  | fuel + 1, m => if m < 2 then 0 else ilog2Aux fuel (m / 2) + 1

/-- The position of the leading 1-bit: `floor (log2 n)` for `1 ≤ n`. -/
def ilog2 (n : Nat) : Nat := ilog2Aux n n

/-- Numerator of `(p / d) / 2^e`. -/
def scaleNum (p : Nat) (e : Int) : Nat := if e < 0 then p * 2 ^ (-e).toNat else p

/-- Denominator of `(p / d) / 2^e`. -/
def scaleDen (d : Nat) (e : Int) : Nat := if e < 0 then d else d * 2 ^ e.toNat

/-- The integer nearest to `N / D`, a tie going to the even one. -/
def roundNearestEven (N D : Nat) : Nat :=
  if 2 * (N % D) < D then N / D
  else if D < 2 * (N % D) then N / D + 1
  else if (N / D) % 2 = 0 then N / D
  else N / D + 1

/-- The exponent `e` of the unit in the last place of the binary64 binade that
holds `p / d`: 53 significant bits, and not below the subnormal exponent
`-1074`. -/
def ulpExp (p d : Nat) : Int :=
  let e0 : Int := (ilog2 p : Int) - (ilog2 d : Int)
  let floorLog : Int := if scaleDen d e0 ≤ scaleNum p e0 then e0 else e0 - 1
  max (floorLog - 52) (-1074)

/-- The `double` nearest to the positive fraction `p / d` (round to nearest,
ties to even; overflow gives infinity). -/
def roundPos (p d : Nat) : Dbl :=
  let e := ulpExp p d
  let m := roundNearestEven (scaleNum p e) (scaleDen d e)
  let v : ℚ := ((m * 2 ^ e.toNat : Nat) : ℚ) / ((2 ^ (-e).toNat : Nat) : ℚ)
  if DBL_MAX < v then Dbl.pinf else Dbl.fin v

/-- The `double` nearest to a rational number: the rounding that every
floating-point operation applies to its exact result. -/
def roundToDouble (q : ℚ) : Dbl :=
  if q = 0 then Dbl.fin 0
  else if 0 < q then roundPos q.num.natAbs q.den
  else Dbl.neg (roundPos q.num.natAbs q.den)

/-- The `/` of `double` (the sign of a zero is not tracked: a zero divisor is
taken to be `+0.0`). -/
def Dbl.div : Dbl → Dbl → Dbl
  | Dbl.nan, _ => Dbl.nan
  | _, Dbl.nan => Dbl.nan
  | Dbl.fin a, Dbl.fin b =>
    if b = 0 then (if a = 0 then Dbl.nan else if 0 < a then Dbl.pinf else Dbl.ninf)
    else roundToDouble (a / b)
  | Dbl.fin _, _ => Dbl.fin 0
  | Dbl.pinf, Dbl.fin b => if 0 ≤ b then Dbl.pinf else Dbl.ninf
  | Dbl.ninf, Dbl.fin b => if 0 ≤ b then Dbl.ninf else Dbl.pinf
  | _, _ => Dbl.nan

/-! ## hamming_distance (lines 17-28) -/

/-- Conversion of an integer value to the 32-bit `int`: the value congruent to
it modulo `2^32` in the range `-2^31 .. 2^31 - 1`. -/
def toInt32 (v : Int) : Int := (v + 2 ^ 31) % 2 ^ 32 - 2 ^ 31

/-- Lines 17-28.  On line 25 `distance += count()` adds a `size_t` to the
`int distance`: the sum is formed in `size_t` and converted back to `int`. -/
def hamming_distance (str1 str2 : Str) : Int :=
  if str1.length ≠ str2.length then
    -1
  else
    (List.range str1.length).foldl
      (fun distance i =>
        toInt32 (distance
          + (bitset8_count (promote (str1.getD i 0) ^^^ promote (str2.getD i 0)) : Int)))
      0

/-! ## decrypt (lines 137-143) -/

/-- Lines 137-143.  `i % key.size()` is undefined for an empty key. -/
def decrypt (ciphertext key : Str) : Option Str :=
  (List.range ciphertext.length).foldlM
    (fun decrypted i =>
      if key.length = 0 then none
      else
        some (decrypted ++
          [toChar (promote (ciphertext.getD i 0) ^^^ promote (key.getD (i % key.length) 0))]))
    []

/-! ## average_normalized_distance (lines 49-66) -/

/-- The `substr(pos, n)` of `std::string`: it throws when `pos` is beyond the end. -/
def substr (s : Str) (pos n : Nat) : Option Str :=
  if s.length < pos then none else some ((s.drop pos).take n)

/-- Lines 58-63: one iteration of the loop, on the state
`(total_distance, comparisons)`; both components hold integers. -/
def distance_step (ciphertext : Str) (keysize : Nat) (acc : ℚ × Nat) (i : Nat) :
    Option (ℚ × Nat) :=
  match substr ciphertext (i * keysize) keysize,
        substr ciphertext ((i + 1) * keysize) keysize with
  | some chunk1, some chunk2 =>
    some (acc.1 + ((hamming_distance chunk1 chunk2 : Int) : ℚ), acc.2 + 1)
  | _, _ => none

/-- Lines 49-66.  `ciphertext.size() / keysize` is undefined for `keysize = 0`. -/
def average_normalized_distance (ciphertext : Str) (keysize : Nat) : Option Dbl :=
  if keysize = 0 then none
  else
    let num_chunks := ciphertext.length / keysize
    if num_chunks < 2 then some Dbl.pinf
    else
      match (List.range (num_chunks - 1)).foldlM (distance_step ciphertext keysize)
          ((0 : ℚ), 0) with
      | none => none
      | some (total_distance, comparisons) =>
        some (Dbl.div (Dbl.div (Dbl.fin total_distance) (Dbl.fin (comparisons : ℚ)))
          (Dbl.fin (keysize : ℚ)))

/-- Chunk `i` of the ciphertext for key size `k`: the bytes `c[i*k .. (i+1)*k)`. -/
def chunk (c : Str) (k i : Nat) : Str := (c.drop (i * k)).take k

/-- The sum of the Hamming distances between the adjacent full chunks
`i` and `i + 1`, for `i = 0 .. n - 2` where `n = len c / k`. -/
def total_hamming (c : Str) (k : Nat) : Int :=
  ((List.range (c.length / k - 1)).map
    (fun i => hamming_distance (chunk c k i) (chunk c k (i + 1)))).sum

/-- The score in exact rational arithmetic: infinity for fewer than two full
chunks, else `total_hamming / (n - 1) / k`. -/
def exact_average_normalized_distance (c : Str) (k : Nat) : Dbl :=
  if c.length / k < 2 then Dbl.pinf
  else Dbl.fin (((total_hamming c k : Int) : ℚ) / ((c.length / k - 1 : Nat) : ℚ) / (k : ℚ))

/-! ## find_best_key_size (lines 68-82) -/

/-- The `std::min_element` of a range: the first element that no other
element is less than; for an empty range it returns `end()`, which must not
be dereferenced. -/
def min_element {α : Type} (comp : α → α → Bool) : List α → Option α
  | [] => none
  | x :: xs => some (xs.foldl (fun smallest y => if comp y smallest then y else smallest) x)

/-- Lines 72-73: one iteration of the loop that fills `keysize_scores`. -/
def push_score (ciphertext : Str) (scores : List (Nat × Dbl)) (keysize : Nat) :
    Option (List (Nat × Dbl)) :=
  match average_normalized_distance ciphertext keysize with
  | none => none
  | some score => some (scores ++ [(keysize, score)])

/-- Line 71: the values that the counter `keysize` takes while the loop runs.
It goes from `min_size` up to `max_size`; `++keysize` is computed in `size_t`,
so when `max_size` is the largest `size_t`, `2^64 - 1`, the counter wraps to 0
after the last candidate, `keysize <= max_size` still holds and the body runs
with `keysize = 0`. -/
def keysize_values (min_size max_size : Nat) : List Nat :=
  List.range' min_size (max_size + 1 - min_size)
    ++ (if max_size + 1 < 2 ^ 64 then [] else [0])

/-- Lines 69-74: the vector `keysize_scores`, for the values of `keysize` that
the loop runs through. -/
def keysize_scores (ciphertext : Str) (min_size max_size : Nat) : Option (List (Nat × Dbl)) :=
  (keysize_values min_size max_size).foldlM (push_score ciphertext) []

/-- Lines 68-82. -/
def find_best_key_size (ciphertext : Str) (min_size max_size : Nat) : Option Nat :=
  match keysize_scores ciphertext min_size max_size with
  | none => none
  | some scores =>
    match min_element (fun a b => Dbl.lt a.2 b.2) scores with
    | none => none
    | some best_keysize => some best_keysize.1

/-! ## break_into_blocks (lines 84-90) and transpose_blocks (lines 92-102) -/

/-- Line 87: `blocks[i / keysize].push_back(ciphertext[i])`; the index must
denote an element of `blocks`. -/
def push_to_block (ciphertext : Str) (keysize : Nat) (blocks : List Str) (i : Nat) :
    Option (List Str) :=
  match blocks[i / keysize]? with
  | none => none
  | some block => some (blocks.set (i / keysize) (block ++ [ciphertext.getD i 0]))

/-- Lines 84-90.  The division of line 85 is undefined for `keysize = 0`; the
sum `ciphertext.size() + keysize - 1` is computed in `size_t`, modulo `2^64`. -/
def break_into_blocks (ciphertext : Str) (keysize : Nat) : Option (List Str) :=
  if keysize = 0 then none
  else
    (List.range ciphertext.length).foldlM (push_to_block ciphertext keysize)
      (List.replicate ((ciphertext.length + keysize - 1) % 2 ^ 64 / keysize) [])

/-- Line 98: `transposed[i] += block[i]`; the index must denote an element of
`transposed`. -/
def push_to_column (block : Str) (transposed : List Str) (i : Nat) : Option (List Str) :=
  match transposed[i]? with
  | none => none
  | some column => some (transposed.set i (column ++ [block.getD i 0]))

/-- Lines 97-99: the inner loop, appending the bytes of one block to the columns. -/
def transpose_block (transposed : List Str) (block : Str) : Option (List Str) :=
  (List.range block.length).foldlM (push_to_column block) transposed

/-- Lines 92-102. -/
def transpose_blocks (blocks : List Str) : Option (List Str) :=
  match blocks with
  | [] => some []
  | block0 :: _ => blocks.foldlM transpose_block (List.replicate block0.length [])

/-- Column `j` as the bytes of the ciphertext at the positions congruent to `j`
modulo `k`, in ascending order. -/
def column (c : Str) (k j : Nat) : Str :=
  ((List.range c.length).filter (fun p => p % k = j)).map (fun p => c.getD p 0)

/-! ## single_byte_xor (lines 104-127) and find_repeating_key (lines 129-135) -/

/-- The `isprint` of the default "C" locale, on a promoted `char`: the codes
0x20..0x7E.  A `char` with the high bit set is promoted to a negative `int`,
which is not a printable code. -/
def isprint (v : Nat) : Bool := decide (0x20 ≤ v ∧ v ≤ 0x7E)

/-- The `isspace` of the default "C" locale, on a promoted `char`: space and the
codes 0x09..0x0D. -/
def isspace (v : Nat) : Bool := decide (v = 0x20 ∨ (0x09 ≤ v ∧ v ≤ 0x0D))

/-- Lines 109-112: the candidate decryption of `block` under `key`. -/
def xor_decrypted (block : Str) (key : Nat) : Str :=
  block.foldl (fun decrypted c => decrypted ++ [toChar (promote c ^^^ key)]) []

/-- Lines 114-119: the score of a candidate decryption. -/
def printable_score (decrypted : Str) : ℚ :=
  decrypted.foldl
    (fun score c => if isprint (promote c) || isspace (promote c) then score + 1 else score)
    0

/-- Lines 104-127.  The loop state is `(best_key, best_score)`. -/
def single_byte_xor (block : Str) : Byte × Dbl :=
  (List.range 256).foldl
    (fun (best : Byte × Dbl) key =>
      let score := printable_score (xor_decrypted block key)
      if Dbl.lt (Dbl.fin score) best.2 then (toChar key, Dbl.fin score) else best)
    ((0 : Byte), Dbl.fin DBL_MAX)

/-- The column obtained by XOR-ing every byte of `text` with the byte `b`. -/
def xor_with (text : Str) (b : Byte) : Str :=
  text.map (fun c => toChar (c.val ^^^ b.val))

/-- A byte value that is printable ASCII (0x20..0x7E) or ASCII whitespace
(space, 0x09..0x0D). -/
def is_text_byte (v : Nat) : Bool :=
  decide ((0x20 ≤ v ∧ v ≤ 0x7E) ∨ (0x09 ≤ v ∧ v ≤ 0x0D))

/-- The number of bytes of `column XOR key` that are printable ASCII or
whitespace. -/
def printable_count (column : Str) (key : Nat) : Nat :=
  column.countP (fun c => is_text_byte (c.val ^^^ key))

/-- Lines 129-135. -/
def find_repeating_key (blocks : List Str) : Str :=
  blocks.foldl (fun key block => key ++ [(single_byte_xor block).1]) []

/-! ## base64_decode (lines 30-47) -/

/-- Lines 31-34: the string `base64_chars`,
"ABCDEFGHIJKLMNOPQRSTUVWXYZabcdefghijklmnopqrstuvwxyz0123456789+/". -/
def base64_chars : Str :=
  [65, 66, 67, 68, 69, 70, 71, 72, 73, 74, 75, 76, 77, 78, 79, 80, 81, 82, 83, 84, 85, 86, 87,
    88, 89, 90,
   97, 98, 99, 100, 101, 102, 103, 104, 105, 106, 107, 108, 109, 110, 111, 112, 113, 114, 115,
    116, 117, 118, 119, 120, 121, 122,
   48, 49, 50, 51, 52, 53, 54, 55, 56, 57, 43, 47]

/-- The `find(char)` of `std::string`: the position of the first occurrence,
`none` standing for `npos`. -/
def find : Str → Byte → Option Nat
  | [], _ => none
  | x :: xs, c => if x = c then some 0 else (find xs c).map (· + 1)

/-- The `>>` of a 32-bit `int`, on two's-complement bit patterns: the sign bit
is copied into the vacated positions. -/
def asr32 (v s : Nat) : Nat :=
  ((if v < 2 ^ 31 then v else v + (2 ^ (32 + s) - 2 ^ 32)) / 2 ^ s) % 2 ^ 32

/-- Lines 37-45: the loop over the input, on the state `(out, val, valb)`.
`val` is a 32-bit `int` that is never masked: it is kept as a bit pattern and
its arithmetic wraps modulo `2^32`. -/
def base64_loop : Str → Str → Nat → Int → Str
  | [], out, _, _ => out
  | c :: rest, out, val, valb =>
    match find base64_chars c with
    | none => out
    | some index =>
      if 0 ≤ valb + 6 then
        base64_loop rest
          (out ++ [toChar (asr32 ((val * 64 + index) % 2 ^ 32) (valb + 6).toNat % 256)])
          ((val * 64 + index) % 2 ^ 32) (valb + 6 - 8)
      else
        base64_loop rest out ((val * 64 + index) % 2 ^ 32) (valb + 6)

/-- Lines 30-47. -/
def base64_decode (input : Str) : Str := base64_loop input [] 0 (-8)

/-- The 64 characters of the RFC 4648 alphabet: `A-Z`, `a-z`, `0-9`, `+`, `/`. -/
def is_base64_alphabet (c : Byte) : Bool :=
  decide ((65 ≤ c.val ∧ c.val ≤ 90) ∨ (97 ≤ c.val ∧ c.val ≤ 122) ∨ (48 ≤ c.val ∧ c.val ≤ 57)
    ∨ c.val = 43 ∨ c.val = 47)

/-- The RFC 4648 value of an alphabet character: `A-Z` are 0..25, `a-z` are
26..51, `0-9` are 52..61, `+` is 62 and `/` is 63. -/
def rfc4648_index (c : Byte) : Nat :=
  if 65 ≤ c.val ∧ c.val ≤ 90 then c.val - 65
  else if 97 ≤ c.val ∧ c.val ≤ 122 then c.val - 71
  else if 48 ≤ c.val ∧ c.val ≤ 57 then c.val + 4
  else if c.val = 43 then 62
  else 63

/-- The six bits of a value below 64, the most significant first. -/
def bits6 (v : Nat) : List Bool :=
  [v.testBit 5, v.testBit 4, v.testBit 3, v.testBit 2, v.testBit 1, v.testBit 0]

/-- The bit string of a base64 text: the 6-bit values of its characters,
concatenated. -/
def bit_string (s : Str) : List Bool :=
  (s.map (fun c => bits6 (rfc4648_index c))).flatten

/-- The number that a list of bits denotes, the most significant bit first. -/
def bits_value (bs : List Bool) : Nat :=
  bs.foldl (fun acc b => 2 * acc + (if b then 1 else 0)) 0

/-- The RFC 4648 decoding of a text of alphabet characters: `floor (6 n / 8)`
bytes, byte `j` being bits `8 j .. 8 j + 7` of the bit string. -/
def rfc4648_decode (s : Str) : Str :=
  (List.range (6 * s.length / 8)).map
    (fun j => toChar (bits_value (((bit_string s).drop (8 * j)).take 8)))

/-! ## main (lines 145-172) -/

/-- Lines 157-169 of `main`, on the contents of the input file: the key size,
the key and the decrypted text that are printed. -/
def main (base64_ciphertext : Str) : Option (Nat × Str × Str) :=
  match find_best_key_size (base64_decode base64_ciphertext) 2 40 with
  | none => none
  | some key_size =>
    match break_into_blocks (base64_decode base64_ciphertext) key_size with
    | none => none
    | some blocks =>
      match transpose_blocks blocks with
      | none => none
      | some transposed =>
        match decrypt (base64_decode base64_ciphertext) (find_repeating_key transposed) with
        | none => none
        | some decrypted_text => some (key_size, find_repeating_key transposed, decrypted_text)

/-- A three-sentence English plaintext of 31 bytes,
"Hi there. How are you? I am ok.". -/
def example_plaintext : Str :=
  [72, 105, 32, 116, 104, 101, 114, 101, 46, 32, 72, 111, 119, 32, 97, 114, 101, 32, 121, 111,
    117, 63, 32, 73, 32, 97, 109, 32, 111, 107, 46]

/-- The plaintext `example_plaintext` XOR the repeating key "ICE". -/
def example_ciphertext : Str :=
  [1, 42, 101, 61, 43, 32, 59, 38, 107, 105, 11, 42, 62, 99, 36, 59, 38, 101, 48, 44, 48, 118,
    99, 12, 105, 34, 40, 105, 44, 46, 103]

/-- The base64 encoding of `example_ciphertext`,
"ASplPSsgOyZraQsqPmMkOyZlMCwwdmMMaSIoaSwuZw==". -/
def example_base64 : Str :=
  [65, 83, 112, 108, 80, 83, 115, 103, 79, 121, 90, 114, 97, 81, 115, 113, 80, 109, 77, 107,
    79, 121, 90, 108, 77, 67, 119, 119, 100, 109, 77, 77, 97, 83, 73, 111, 97, 83, 119, 117,
    90, 119, 61, 61]

/-! ## The rounding model on known values -/

/-- The `double` written `0.1` is `0x3FB999999999999A`, the one written
`1.0 / 3` is `0x3FD5555555555555`; representable numbers are not changed. -/
theorem roundToDouble_known_values :
    roundToDouble (1 / 10) = Dbl.fin (3602879701896397 / 2 ^ 55)
      ∧ roundToDouble (1 / 3) = Dbl.fin (6004799503160661 / 2 ^ 54)
      ∧ roundToDouble 1 = Dbl.fin 1
      ∧ roundToDouble (37 / 8) = Dbl.fin (37 / 8)
      ∧ roundToDouble DBL_MAX = Dbl.fin DBL_MAX := by
  decide!

/-- Ties go to the even significand, and numbers beyond the largest finite
`double` by half a unit in the last place or more overflow to infinity. -/
theorem roundToDouble_ties_and_overflow :
    roundToDouble (2 ^ 53 + 1) = Dbl.fin (2 ^ 53)
      ∧ roundToDouble (2 ^ 53 + 3) = Dbl.fin (2 ^ 53 + 4)
      ∧ roundToDouble (DBL_MAX + 2 ^ 969) = Dbl.fin DBL_MAX
      ∧ roundToDouble (DBL_MAX + 2 ^ 970) = Dbl.pinf := by
  decide!

/-! ## Byte-level facts -/

theorem xor_mod_two_pow (x y n : Nat) :
    (x ^^^ y) % 2 ^ n = (x % 2 ^ n) ^^^ (y % 2 ^ n) := by
  apply Nat.eq_of_testBit_eq
  intro i
  simp only [Nat.testBit_mod_two_pow, Nat.testBit_xor]
  by_cases h : i < n <;> simp [h]

theorem promote_mod (a : Byte) : promote a % 256 = a.val := by
  have := a.isLt
  unfold promote
  split <;> omega

theorem bitset8_count_mod (v : Nat) : bitset8_count (v % 256) = bitset8_count v := by
  unfold bitset8_count
  congr 1
  apply List.filter_congr
  intro i hi
  have h8 : i < 8 := List.mem_range.mp hi
  have : (256 : Nat) = 2 ^ 8 := by norm_num
  rw [this, Nat.testBit_mod_two_pow]
  simp [h8]

theorem promote_xor_low (a b : Byte) :
    (promote a ^^^ promote b) % 256 = a.val ^^^ b.val := by
  have h := xor_mod_two_pow (promote a) (promote b) 8
  simp only [show (2 : Nat) ^ 8 = 256 from rfl] at h
  rw [h, promote_mod, promote_mod]

theorem bitset8_count_promote_xor (a b : Byte) :
    bitset8_count (promote a ^^^ promote b) = bitset8_count (a.val ^^^ b.val) := by
  rw [← bitset8_count_mod, promote_xor_low]

theorem toChar_promote_xor (a b : Byte) :
    (toChar (promote a ^^^ promote b)).val = a.val ^^^ b.val := by
  simp only [toChar]
  exact promote_xor_low a b

/-! ## Loops that append one element per iteration -/

theorem foldlM_push_eq_map {α β : Type} (f : β → α) (l : List β) (init : List α) :
    l.foldlM (fun acc i => (some (acc ++ [f i]) : Option (List α))) init
      = some (init ++ l.map f) := by
  induction l generalizing init with
  | nil => simp
  | cons x xs ih => simp [List.foldlM, ih]

theorem foldl_push_eq_map {α β : Type} (f : β → α) (l : List β) (init : List α) :
    l.foldl (fun acc i => acc ++ [f i]) init = init ++ l.map f := by
  induction l generalizing init with
  | nil => simp
  | cons x xs ih => simp [ih]

theorem getD_map_range {α : Type} (f : Nat → α) (n i : Nat) (d : α) (h : i < n) :
    ((List.range n).map f).getD i d = f i := by
  rw [List.getD_eq_getElem _ _ (by simpa using h)]
  simp

/-! ## hamming_distance -/

theorem bitset8_count_zero : bitset8_count 0 = 0 := by decide

theorem bitset8_count_le (v : Nat) : bitset8_count v ≤ 8 := by
  unfold bitset8_count
  calc ((List.range 8).filter (fun i => v.testBit i)).length ≤ (List.range 8).length :=
        List.length_filter_le _ _
    _ = 8 := List.length_range 8

theorem toInt32_add (x y : Int) : toInt32 (toInt32 x + y) = toInt32 (x + y) := by
  unfold toInt32
  omega

theorem toInt32_of_range (x : Int) (h0 : -2 ^ 31 ≤ x) (h1 : x < 2 ^ 31) : toInt32 x = x := by
  unfold toInt32
  omega

/-- The value that `hamming_distance` returns for equal lengths: the number of
differing bits, converted to `int`. -/
theorem hamming_distance_eq_wrap (a b : Str) (h : a.length = b.length) :
    hamming_distance a b
      = toInt32 (∑ i in Finset.range a.length,
          (bitset8_count ((a.getD i 0).val ^^^ (b.getD i 0).val) : Int)) := by
  unfold hamming_distance
  rw [if_neg (by simpa using h)]
  generalize a.length = n
  induction n with
  | zero => simp [toInt32]
  | succ n ih =>
    rw [List.range_succ, List.foldl_append, ih, Finset.sum_range_succ]
    simp [bitset8_count_promote_xor, toInt32_add]

theorem bit_sum_bounds (a b : Str) :
    0 ≤ ∑ i in Finset.range a.length,
          (bitset8_count ((a.getD i 0).val ^^^ (b.getD i 0).val) : Int)
    ∧ ∑ i in Finset.range a.length,
          (bitset8_count ((a.getD i 0).val ^^^ (b.getD i 0).val) : Int) ≤ 8 * (a.length : Int) := by
  constructor
  · apply Finset.sum_nonneg
    intro i _
    exact Int.natCast_nonneg _
  · calc ∑ i in Finset.range a.length,
            (bitset8_count ((a.getD i 0).val ^^^ (b.getD i 0).val) : Int)
        ≤ ∑ _i in Finset.range a.length, (8 : Int) := by
          apply Finset.sum_le_sum
          intro i _
          exact_mod_cast bitset8_count_le _
      _ = 8 * (a.length : Int) := by
          rw [Finset.sum_const, Finset.card_range]
          simp [mul_comm]

/-- Below `2^28` bytes the count of differing bits fits the `int`. -/
theorem hamming_distance_eq_sum (a b : Str) (h : a.length = b.length)
    (hfit : 8 * a.length < 2 ^ 31) :
    hamming_distance a b
      = ∑ i in Finset.range a.length,
          (bitset8_count ((a.getD i 0).val ^^^ (b.getD i 0).val) : Int) := by
  rw [hamming_distance_eq_wrap a b h]
  obtain ⟨h0, h1⟩ := bit_sum_bounds a b
  apply toInt32_of_range
  · omega
  · have : (8 * a.length : Int) < 2 ^ 31 := by exact_mod_cast hfit
    omega

theorem hamming_distance_nonneg (a b : Str) (h : a.length = b.length)
    (hfit : 8 * a.length < 2 ^ 31) :
    0 ≤ hamming_distance a b := by
  rw [hamming_distance_eq_sum a b h hfit]
  exact (bit_sum_bounds a b).1

theorem hamming_distance_le (a b : Str) (h : a.length = b.length)
    (hfit : 8 * a.length < 2 ^ 31) :
    hamming_distance a b ≤ 8 * (a.length : Int) := by
  rw [hamming_distance_eq_sum a b h hfit]
  exact (bit_sum_bounds a b).2

theorem getD_replicate_append (n i : Nat) (x y : Byte) (tl : Str) (h : i < n) :
    (List.replicate n x ++ tl).getD i y = x := by
  rw [List.getD_eq_getElem?_getD, List.getElem?_append_left (by simpa using h)]
  simp [h]

/-- The number of differing bits of `n` bytes `0x00` followed by `x`, against
`n` bytes `0xFF` followed by `y`. -/
theorem bit_sum_replicate (n : Nat) (x y : Byte) :
    ∑ i in Finset.range (List.replicate n (0 : Byte) ++ [x]).length,
        (bitset8_count (((List.replicate n (0 : Byte) ++ [x]).getD i 0).val
          ^^^ ((List.replicate n (255 : Byte) ++ [y]).getD i 0).val) : Int)
      = 8 * (n : Int) + (bitset8_count (x.val ^^^ y.val) : Int) := by
  have hlen : (List.replicate n (0 : Byte) ++ [x]).length = n + 1 := by simp
  rw [hlen, Finset.sum_range_succ]
  have hlast : ∀ (z w : Byte), (List.replicate n z ++ [w]).getD n 0 = w := by
    intro z w
    rw [List.getD_eq_getElem?_getD, List.getElem?_append_right (by simp)]
    simp
  rw [hlast, hlast]
  have hsum : ∑ i in Finset.range n,
        (bitset8_count (((List.replicate n (0 : Byte) ++ [x]).getD i 0).val
          ^^^ ((List.replicate n (255 : Byte) ++ [y]).getD i 0).val) : Int)
      = ∑ _i in Finset.range n, (8 : Int) := by
    apply Finset.sum_congr rfl
    intro i hi
    have hi2 : i < n := Finset.mem_range.mp hi
    rw [getD_replicate_append n i 0 0 [x] hi2, getD_replicate_append n i 255 0 [y] hi2]
    decide
  rw [hsum, Finset.sum_const, Finset.card_range]
  simp [mul_comm]

theorem hamming_distance_replicate (n : Nat) (x y : Byte) :
    hamming_distance (List.replicate n 0 ++ [x]) (List.replicate n 255 ++ [y])
      = toInt32 (8 * (n : Int) + (bitset8_count (x.val ^^^ y.val) : Int)) := by
  rw [hamming_distance_eq_wrap _ _ (by simp), bit_sum_replicate]

/-- The distance between `n` bytes `0x00` and `n` bytes `0xFF`. -/
theorem hamming_distance_replicate_same (n : Nat) :
    hamming_distance (List.replicate n 0) (List.replicate n 255) = toInt32 (8 * (n : Int)) := by
  cases n with
  | zero => decide
  | succ m =>
    rw [List.replicate_succ', List.replicate_succ', hamming_distance_replicate]
    have h : bitset8_count ((0 : Byte).val ^^^ (255 : Byte).val) = 8 := by decide
    rw [h]
    congr 1

/-! ## decrypt -/

theorem decrypt_eq_map (c K : Str) (hK : K ≠ []) :
    decrypt c K = some ((List.range c.length).map
      (fun i => toChar (promote (c.getD i 0) ^^^ promote (K.getD (i % K.length) 0)))) := by
  have hlen : K.length ≠ 0 := by simpa using hK
  unfold decrypt
  simp only [if_neg hlen]
  rw [foldlM_push_eq_map]
  simp

/-- The bytes of a successful `decrypt`. -/
theorem decrypt_getD (c K out : Str) (hK : K ≠ []) (h : decrypt c K = some out) :
    out.length = c.length ∧
      ∀ i, i < c.length →
        (out.getD i 0).val = (c.getD i 0).val ^^^ (K.getD (i % K.length) 0).val := by
  rw [decrypt_eq_map c K hK] at h
  have h2 := Option.some.inj h
  subst h2
  refine ⟨by simp, ?_⟩
  intro i hi
  rw [getD_map_range _ _ _ _ hi, toChar_promote_xor]

/-- C1: for every ciphertext `c` and every non-empty key `K`, `decrypt c K`
returns a string of the length of `c` whose `i`-th byte is
`c[i] XOR K[i mod len K]`. -/
theorem decrypt_spec (c K : Str) (hK : K ≠ []) :
    ∃ out, decrypt c K = some out ∧ out.length = c.length ∧
      ∀ i, i < c.length →
        (out.getD i 0).val = (c.getD i 0).val ^^^ (K.getD (i % K.length) 0).val :=
  ⟨_, decrypt_eq_map c K hK, decrypt_getD c K _ hK (decrypt_eq_map c K hK)⟩

theorem decrypt_spec_witness :
    ∃ out, decrypt [1, 2, 3, 4, 5, 200] [255, 128] = some out ∧
      out.length = ([1, 2, 3, 4, 5, 200] : Str).length ∧
      ∀ i, i < ([1, 2, 3, 4, 5, 200] : Str).length →
        (out.getD i 0).val
          = (([1, 2, 3, 4, 5, 200] : Str).getD i 0).val
              ^^^ (([255, 128] : Str).getD (i % ([255, 128] : Str).length) 0).val :=
  decrypt_spec [1, 2, 3, 4, 5, 200] [255, 128] (by decide)

/-- Decrypting the result of `decrypt` with the same non-empty key gives the
input back. -/
theorem decrypt_involutive (P K C : Str) (hK : K ≠ []) (hC : decrypt P K = some C) :
    decrypt C K = some P := by
  obtain ⟨hlen, hval⟩ := decrypt_getD P K C hK hC
  have hout := decrypt_eq_map C K hK
  obtain ⟨hlen2, hval2⟩ := decrypt_getD C K _ hK hout
  rw [hout]
  generalize (List.range C.length).map
    (fun i => toChar (promote (C.getD i 0) ^^^ promote (K.getD (i % K.length) 0))) = out
    at hlen2 hval2 ⊢
  congr 1
  apply List.ext_getElem (by omega)
  intro i h1 h2
  have e1 := hval2 i (by omega)
  have e2 := hval i h2
  rw [List.getD_eq_getElem _ _ h1] at e1
  rw [List.getD_eq_getElem _ _ (by omega : i < C.length)] at e1 e2
  rw [List.getD_eq_getElem _ _ h2] at e2
  apply Fin.ext
  rw [e1, e2, Nat.xor_assoc, Nat.xor_self, Nat.xor_zero]

/-- C2: for every byte sequence `P` and every non-empty key `K`, decrypting
twice with `K` gives `P` back: `decrypt (decrypt P K) K = P`. -/
theorem decrypt_roundtrip (P K : Str) (hK : K ≠ []) :
    ∃ c, decrypt P K = some c ∧ decrypt c K = some P :=
  ⟨_, decrypt_eq_map P K hK, decrypt_involutive P K _ hK (decrypt_eq_map P K hK)⟩

theorem decrypt_roundtrip_witness :
    ∃ c, decrypt [72, 105, 33, 200] [73, 67, 69] = some c
      ∧ decrypt c [73, 67, 69] = some [72, 105, 33, 200] :=
  decrypt_roundtrip [72, 105, 33, 200] [73, 67, 69] (by decide)

/-- C3, amended: for equal-length byte sequences of fewer than `2^28` bytes
(`8 * len < 2^31`; every byte value allowed, those with the high bit set being
negative as `char`), `hamming_distance a b` is the sum over the positions `i`
of the number of 1-bits of the 8-bit value `a[i] XOR b[i]`; and the distance
between "this is a test" and "wokka wokka!!!" is 37. -/
theorem hamming_distance_spec :
    (∀ a b : Str, a.length = b.length → 8 * a.length < 2 ^ 31 →
      hamming_distance a b
        = ∑ i in Finset.range a.length,
            (bitset8_count ((a.getD i 0).val ^^^ (b.getD i 0).val) : Int))
    ∧ hamming_distance
        [116, 104, 105, 115, 32, 105, 115, 32, 97, 32, 116, 101, 115, 116]
        [119, 111, 107, 107, 97, 32, 119, 111, 107, 107, 97, 33, 33, 33] = 37 :=
  ⟨hamming_distance_eq_sum, by decide!⟩

theorem hamming_distance_spec_witness :
    hamming_distance [0, 255, 128] [255, 255, 1]
      = ∑ i in Finset.range ([0, 255, 128] : Str).length,
          (bitset8_count ((([0, 255, 128] : Str).getD i 0).val
            ^^^ (([255, 255, 1] : Str).getD i 0).val) : Int) :=
  hamming_distance_spec.1 [0, 255, 128] [255, 255, 1] (by decide) (by decide)

/-- C3 as stated fails: `2^28` bytes `0x00` and `2^28` bytes `0xFF` have equal
lengths and differ in `8 * 2^28 = 2^31` bits, which is one more than the
largest `int`; `hamming_distance` returns `-2^31`. -/
theorem hamming_distance_wraps :
    (List.replicate (2 ^ 28) (0 : Byte)).length = (List.replicate (2 ^ 28) (255 : Byte)).length
    ∧ ∑ i in Finset.range (List.replicate (2 ^ 28) (0 : Byte)).length,
          (bitset8_count (((List.replicate (2 ^ 28) (0 : Byte)).getD i 0).val
            ^^^ ((List.replicate (2 ^ 28) (255 : Byte)).getD i 0).val) : Int) = 2147483648
    ∧ hamming_distance (List.replicate (2 ^ 28) 0) (List.replicate (2 ^ 28) 255)
        = -2147483648 := by
  refine ⟨?_, ?_, ?_⟩
  · rw [List.length_replicate, List.length_replicate]
  · rw [List.length_replicate]
    have hsum : ∑ i in Finset.range (2 ^ 28),
          (bitset8_count (((List.replicate (2 ^ 28) (0 : Byte)).getD i 0).val
            ^^^ ((List.replicate (2 ^ 28) (255 : Byte)).getD i 0).val) : Int)
        = ∑ _i in Finset.range (2 ^ 28), (8 : Int) := by
      apply Finset.sum_congr rfl
      intro i hi
      have hi2 : i < 2 ^ 28 := Finset.mem_range.mp hi
      have e0 := getD_replicate_append (2 ^ 28) i 0 0 [] hi2
      have e1 := getD_replicate_append (2 ^ 28) i 255 0 [] hi2
      rw [List.append_nil] at e0 e1
      rw [e0, e1]
      decide
    rw [hsum, Finset.sum_const, Finset.card_range]
    norm_num
  · rw [hamming_distance_replicate_same]
    norm_num [toInt32]

/-- C4: for equal-length byte sequences `hamming_distance` is symmetric, and
the distance of a sequence to itself is 0. -/
theorem hamming_distance_symm_self (a b : Str) (h : a.length = b.length) :
    hamming_distance a b = hamming_distance b a ∧ hamming_distance a a = 0 := by
  constructor
  · rw [hamming_distance_eq_wrap a b h, hamming_distance_eq_wrap b a h.symm, h]
    congr 1
    apply Finset.sum_congr rfl
    intro i _
    rw [Nat.xor_comm]
  · rw [hamming_distance_eq_wrap a a rfl]
    have hzero : ∑ i in Finset.range a.length,
          (bitset8_count ((a.getD i 0).val ^^^ (a.getD i 0).val) : Int) = 0 := by
      apply Finset.sum_eq_zero
      intro i _
      rw [Nat.xor_self, bitset8_count_zero]
      rfl
    rw [hzero]
    decide

theorem hamming_distance_symm_self_witness :
    hamming_distance [1, 2, 250] [7, 0, 3] = hamming_distance [7, 0, 3] [1, 2, 250]
      ∧ hamming_distance [1, 2, 250] [1, 2, 250] = 0 :=
  hamming_distance_symm_self [1, 2, 250] [7, 0, 3] (by decide)

/-! ## average_normalized_distance -/

theorem chunk_length (c : Str) (k i : Nat) (h : (i + 1) * k ≤ c.length) :
    (chunk c k i).length = k := by
  unfold chunk
  rw [List.length_take, List.length_drop]
  have : (i + 1) * k = i * k + k := by ring
  omega

theorem substr_eq_chunk (c : Str) (k i : Nat) (h : i * k ≤ c.length) :
    substr c (i * k) k = some (chunk c k i) := by
  unfold substr chunk
  rw [if_neg (by omega)]

/-- The loop of lines 58-63 run for `m` iterations. -/
theorem distance_loop (c : Str) (k m : Nat) (hm : (m + 1) * k ≤ c.length) :
    (List.range m).foldlM
        (distance_step c k)
        ((0 : ℚ), 0)
      = some (((((List.range m).map
          (fun i => hamming_distance (chunk c k i) (chunk c k (i + 1)))).sum : Int) : ℚ), m) := by
  induction m with
  | zero => simp
  | succ m ih =>
    have h1 : (m + 1) * k ≤ c.length := by
      have : (m + 1 + 1) * k = (m + 1) * k + k := by ring
      omega
    have h0 : m * k ≤ c.length := by
      have : (m + 1) * k = m * k + k := by ring
      omega
    rw [List.range_succ, List.foldlM_append, ih h1]
    simp [distance_step, substr_eq_chunk c k m h0, substr_eq_chunk c k (m + 1) h1]

theorem chunks_fit (c : Str) (k : Nat) (h2 : 2 ≤ c.length / k) :
    (c.length / k - 1 + 1) * k ≤ c.length := by
  have : c.length / k - 1 + 1 = c.length / k := by omega
  rw [this]
  exact Nat.div_mul_le_self _ _

theorem average_normalized_distance_eq (c : Str) (k : Nat) (hk : 1 ≤ k) :
    average_normalized_distance c k = some
      (if c.length / k < 2 then Dbl.pinf
       else Dbl.div
          (Dbl.div (Dbl.fin ((total_hamming c k : Int) : ℚ))
            (Dbl.fin ((c.length / k - 1 : Nat) : ℚ)))
          (Dbl.fin (k : ℚ))) := by
  unfold average_normalized_distance
  rw [if_neg (by omega)]
  by_cases h : c.length / k < 2
  · simp [h]
  · simp only [h, if_false]
    rw [distance_loop c k _ (chunks_fit c k (by omega))]
    rfl

theorem chunk_getD (c : Str) (k i j : Nat) (hj : j < k) :
    (chunk c k i).getD j 0 = c.getD (i * k + j) 0 := by
  unfold chunk
  simp only [List.getD_eq_getElem?_getD, List.getElem?_take, List.getElem?_drop, hj, if_true]

theorem div_fin_fin (a b : ℚ) (hb : b ≠ 0) :
    Dbl.div (Dbl.fin a) (Dbl.fin b) = roundToDouble (a / b) := by
  simp [Dbl.div, hb]

/-- C6, amended: for every ciphertext `c` and key size `k ≥ 1` with
`8 * k < 2^31` (chunks of fewer than `2^28` bytes, whose distance fits the
`int`), with `n = len c / k` full chunks: for `n < 2` the score is `+infinity`; otherwise it
is the `double` quotient `(S / (n - 1)) / k`, each of the two divisions rounded
to the nearest `double`, where `S` is the sum of the Hamming distances between
chunk `i` and chunk `i + 1` for `i = 0 .. n - 2`.  Every chunk compared has
exactly `k` bytes, chunk `i` holding `c[i*k .. (i+1)*k)` (the final partial
chunk is never read), and every distance is a count, never the failure value
`-1`.  When neither division rounds, the score is the exact rational
`S / (n - 1) / k`. -/
theorem average_normalized_distance_spec (c : Str) (k : Nat) (hk : 1 ≤ k)
    (hk8 : 8 * k < 2 ^ 31) :
    (c.length / k < 2 → average_normalized_distance c k = some Dbl.pinf)
    ∧ (2 ≤ c.length / k →
        average_normalized_distance c k
            = some (Dbl.div
                (roundToDouble (((total_hamming c k : Int) : ℚ) / ((c.length / k - 1 : Nat) : ℚ)))
                (Dbl.fin (k : ℚ)))
          ∧ (∀ i, i < c.length / k - 1 →
              (chunk c k i).length = k ∧ (chunk c k (i + 1)).length = k
                ∧ (∀ j, j < k → (chunk c k i).getD j 0 = c.getD (i * k + j) 0)
                ∧ 0 ≤ hamming_distance (chunk c k i) (chunk c k (i + 1)))
          ∧ (roundToDouble (((total_hamming c k : Int) : ℚ) / ((c.length / k - 1 : Nat) : ℚ))
                = Dbl.fin (((total_hamming c k : Int) : ℚ) / ((c.length / k - 1 : Nat) : ℚ)) →
             roundToDouble
                  (((total_hamming c k : Int) : ℚ) / ((c.length / k - 1 : Nat) : ℚ) / (k : ℚ))
                = Dbl.fin
                  (((total_hamming c k : Int) : ℚ) / ((c.length / k - 1 : Nat) : ℚ) / (k : ℚ)) →
             average_normalized_distance c k = some (exact_average_normalized_distance c k))) := by
  have hk0 : (k : ℚ) ≠ 0 := by
    have : k ≠ 0 := by omega
    exact_mod_cast this
  constructor
  · intro h
    rw [average_normalized_distance_eq c k hk, if_pos h]
  · intro h
    have hn : ¬ c.length / k < 2 := by omega
    have hm0 : ((c.length / k - 1 : Nat) : ℚ) ≠ 0 := by
      have : c.length / k - 1 ≠ 0 := by omega
      exact_mod_cast this
    have heq : average_normalized_distance c k
            = some (Dbl.div
                (roundToDouble (((total_hamming c k : Int) : ℚ) / ((c.length / k - 1 : Nat) : ℚ)))
                (Dbl.fin (k : ℚ))) := by
      rw [average_normalized_distance_eq c k hk, if_neg hn, div_fin_fin _ _ hm0]
    refine ⟨heq, ?_, ?_⟩
    · intro i hi
      have hfit : (i + 1 + 1) * k ≤ c.length := by
        calc (i + 1 + 1) * k ≤ (c.length / k) * k := Nat.mul_le_mul_right k (by omega)
          _ ≤ c.length := Nat.div_mul_le_self _ _
      have hfit0 : (i + 1) * k ≤ c.length := by
        have : (i + 1 + 1) * k = (i + 1) * k + k := by ring
        omega
      have l1 := chunk_length c k i hfit0
      have l2 := chunk_length c k (i + 1) hfit
      exact ⟨l1, l2, fun j hj => chunk_getD c k i j hj,
        hamming_distance_nonneg _ _ (by rw [l1, l2]) (by rw [l1]; exact hk8)⟩
    · intro r1 r2
      rw [heq, r1, div_fin_fin _ _ hk0, r2, exact_average_normalized_distance, if_neg hn]

theorem average_normalized_distance_spec_witness :
    average_normalized_distance [0, 0, 0, 1] 1
      = some (Dbl.div
          (roundToDouble (((total_hamming [0, 0, 0, 1] 1 : Int) : ℚ)
            / ((([0, 0, 0, 1] : Str).length / 1 - 1 : Nat) : ℚ)))
          (Dbl.fin ((1 : Nat) : ℚ))) :=
  ((average_normalized_distance_spec [0, 0, 0, 1] 1 (by decide) (by decide)).2 (by decide)).1

/-- C6 as stated fails: for the four bytes `00 00 00 01` and key size 1 there
are four chunks and the distances sum to 1, so the exact score is `1/3`; the
code returns the `double` nearest to it, `6004799503160661 / 2^54`. -/
theorem average_normalized_distance_not_exact :
    average_normalized_distance [0, 0, 0, 1] 1 = some (Dbl.fin (6004799503160661 / 2 ^ 54))
    ∧ exact_average_normalized_distance [0, 0, 0, 1] 1 = Dbl.fin (1 / 3)
    ∧ average_normalized_distance [0, 0, 0, 1] 1
        ≠ some (exact_average_normalized_distance [0, 0, 0, 1] 1) := by
  decide!

/-- A ciphertext of exactly two chunks: the score is their distance divided by
1 and by `n`, in `double`. -/
theorem average_normalized_distance_two_chunks (n : Nat) (a b : Str) (hn : 1 ≤ n)
    (ha : a.length = n) (hb : b.length = n) :
    average_normalized_distance (a ++ b) n
      = some (Dbl.div (Dbl.div (Dbl.fin ((hamming_distance a b : Int) : ℚ)) (Dbl.fin ((1 : Nat) : ℚ)))
          (Dbl.fin (n : ℚ))) := by
  have hlen : (a ++ b).length / n = 2 := by
    rw [List.length_append, ha, hb]
    have : n + n = 2 * n := by ring
    rw [this, Nat.mul_div_cancel _ (by omega)]
  have h0 : chunk (a ++ b) n 0 = a := by
    unfold chunk
    rw [Nat.zero_mul, List.drop_zero, ← ha, List.take_left']
    rfl
  have h1 : chunk (a ++ b) n 1 = b := by
    unfold chunk
    rw [Nat.one_mul, ← ha, List.drop_left', ha, ← hb, List.take_length]
    rfl
  rw [average_normalized_distance_eq _ _ hn, hlen, if_neg (by decide)]
  unfold total_hamming
  rw [hlen]
  have hr : List.range 1 = [0] := rfl
  rw [hr]
  simp only [List.map_cons, List.map_nil, List.sum_cons, List.sum_nil, add_zero, zero_add, h0, h1]

/-- Why C6 needs the bound on `k`: two chunks of `2^28` bytes, all `0x00` and
all `0xFF`, differ in `2^31` bits; their distance is returned as `-2^31` and
the score is `-8`, where `S / (n - 1) / k` is 8. -/
theorem average_normalized_distance_wraps :
    average_normalized_distance (List.replicate (2 ^ 28) 0 ++ List.replicate (2 ^ 28) 255) (2 ^ 28)
      = some (Dbl.fin (-8)) := by
  rw [average_normalized_distance_two_chunks (2 ^ 28) _ _ (by decide)
    (List.length_replicate _ _) (List.length_replicate _ _), hamming_distance_replicate_same]
  decide!

/-! ## The order of `double` -/

theorem Dbl.lt_asymm (a b : Dbl) (h : Dbl.lt a b = true) : Dbl.lt b a = false := by
  cases a <;> cases b <;> simp_all [Dbl.lt]
  exact le_of_lt h

theorem Dbl.lt_cotrans (a b c : Dbl) (hc : c ≠ Dbl.nan) (h : Dbl.lt a b = true) :
    Dbl.lt a c = true ∨ Dbl.lt c b = true := by
  cases a <;> cases b <;> cases c <;> simp_all [Dbl.lt]
  rename_i x y z
  by_contra hcon
  push_neg at hcon
  linarith [hcon.1, hcon.2]

theorem Dbl.le_of_not_lt (a b : Dbl) (ha : a ≠ Dbl.nan) (hb : b ≠ Dbl.nan)
    (h : Dbl.lt b a = false) : Dbl.le a b = true := by
  cases a <;> cases b <;> simp_all [Dbl.lt, Dbl.le]

theorem roundPos_ne_nan (p d : Nat) : roundPos p d ≠ Dbl.nan := by
  unfold roundPos
  simp only
  split <;> simp

theorem roundToDouble_ne_nan (q : ℚ) : roundToDouble q ≠ Dbl.nan := by
  unfold roundToDouble
  split
  · simp
  · split
    · exact roundPos_ne_nan _ _
    · have := roundPos_ne_nan q.num.natAbs q.den
      cases h : roundPos q.num.natAbs q.den <;> simp_all [Dbl.neg]

theorem div_pos_ne_nan (x : Dbl) (b : ℚ) (hx : x ≠ Dbl.nan) (hb : 0 < b) :
    Dbl.div x (Dbl.fin b) ≠ Dbl.nan := by
  cases x with
  | fin a => rw [div_fin_fin a b (ne_of_gt hb)]; exact roundToDouble_ne_nan _
  | pinf => simp [Dbl.div, le_of_lt hb]
  | ninf => simp [Dbl.div, le_of_lt hb]
  | nan => exact absurd rfl hx

/-- The score of every key size `k ≥ 1` is defined and is not NaN. -/
theorem average_normalized_distance_ne_nan (c : Str) (k : Nat) (hk : 1 ≤ k) :
    ∃ s, average_normalized_distance c k = some s ∧ s ≠ Dbl.nan := by
  refine ⟨_, average_normalized_distance_eq c k hk, ?_⟩
  split
  · simp
  · rename_i h
    have hk0 : (0 : ℚ) < (k : ℚ) := by exact_mod_cast hk
    have hm0 : (0 : ℚ) < ((c.length / k - 1 : Nat) : ℚ) := by
      have : 0 < c.length / k - 1 := by omega
      exact_mod_cast this
    exact div_pos_ne_nan _ _ (div_pos_ne_nan _ _ (by simp) hm0) hk0

/-! ## min_element -/

/-- What `std::min_element` returns on a non-empty range whose elements are
ordered by a strict weak order: the first of the least elements. -/
theorem min_element_spec {α : Type} (comp : α → α → Bool) (l : List α) (hl : l ≠ [])
    (hasymm : ∀ a ∈ l, ∀ b ∈ l, comp a b = true → comp b a = false)
    (hco : ∀ a ∈ l, ∀ b ∈ l, ∀ c ∈ l, comp a b = true → comp a c = true ∨ comp c b = true) :
    ∃ (i : Nat) (r : α), min_element comp l = some r ∧ l[i]? = some r
      ∧ (∀ (j : Nat) (z : α), l[j]? = some z → comp z r = false)
      ∧ (∀ (j : Nat) (z : α), j < i → l[j]? = some z → comp r z = true) := by
  induction l using List.reverseRecOn with
  | nil => exact absurd rfl hl
  | append_singleton xs y ih =>
    cases xs with
    | nil =>
      refine ⟨0, y, rfl, rfl, ?_, ?_⟩
      · intro j z hz
        cases j with
        | zero =>
          simp at hz
          subst hz
          cases h : comp y y
          · rfl
          · have := hasymm y (by simp) y (by simp) h
            rw [h] at this
            exact absurd this (by simp)
        | succ j => simp at hz
      · intro j z hj
        omega
    | cons x xs =>
      have hsub : ∀ a, a ∈ x :: xs → a ∈ x :: xs ++ [y] := fun a ha =>
        List.mem_append_left _ ha
      obtain ⟨i, r, hmin, hir, hle, hlt⟩ := ih (by simp)
        (fun a ha b hb => hasymm a (hsub a ha) b (hsub b hb))
        (fun a ha b hb c hc => hco a (hsub a ha) b (hsub b hb) c (hsub c hc))
      have hi : i < (x :: xs).length := by
        by_contra hcon
        rw [List.getElem?_eq_none (by omega)] at hir
        exact absurd hir (by simp)
      have hr : r ∈ x :: xs := List.getElem?_mem hir
      have hy : y ∈ x :: xs ++ [y] := by simp
      have hstep : min_element comp (x :: xs ++ [y])
          = some (if comp y r then y else r) := by
        simp only [min_element, List.cons_append, List.foldl_append, List.foldl_cons,
          List.foldl_nil] at hmin ⊢
        simp only [Option.some.injEq] at hmin
        rw [hmin]
      by_cases hyr : comp y r = true
      · refine ⟨(x :: xs).length, y, by rw [hstep, if_pos hyr], ?_, ?_, ?_⟩
        · simp
        · intro j z hz
          have hzmem : z ∈ x :: xs ++ [y] := List.getElem?_mem hz
          rcases hco y hy r (hsub r hr) z hzmem hyr with h | h
          · exact hasymm y hy z hzmem h
          · by_cases hj : j < (x :: xs).length
            · rw [List.getElem?_append_left hj] at hz
              rw [hle j z hz] at h
              exact absurd h (by simp)
            · rw [List.getElem?_append_right (by omega)] at hz
              have hz2 : z = y := by
                have hz3 := List.getElem?_mem hz
                simpa using hz3
              subst hz2
              cases h2 : comp z z
              · rfl
              · have := hasymm z hy z hy h2
                rw [h2] at this
                exact absurd this (by simp)
        · intro j z hj hz
          rw [List.getElem?_append_left hj] at hz
          have hzmem : z ∈ x :: xs := List.getElem?_mem hz
          rcases hco y hy r (hsub r hr) z (hsub z hzmem) hyr with h | h
          · exact h
          · rw [hle j z hz] at h
            exact absurd h (by simp)
      · have hyr2 : comp y r = false := by simpa using hyr
        refine ⟨i, r, by rw [hstep, hyr2]; rfl, ?_, ?_, ?_⟩
        · rw [List.getElem?_append_left hi]
          exact hir
        · intro j z hz
          by_cases hj : j < (x :: xs).length
          · rw [List.getElem?_append_left hj] at hz
            exact hle j z hz
          · rw [List.getElem?_append_right (by omega)] at hz
            have hz2 : z = y := by
              have hz3 := List.getElem?_mem hz
              simpa using hz3
            subst hz2
            exact hyr2
        · intro j z hj hz
          rw [List.getElem?_append_left (by omega)] at hz
          exact hlt j z hj hz

/-! ## find_best_key_size -/

theorem foldlM_push_score (c : Str) (g : Nat → Dbl) (l : List Nat)
    (hg : ∀ k ∈ l, average_normalized_distance c k = some (g k)) (init : List (Nat × Dbl)) :
    l.foldlM (push_score c) init = some (init ++ l.map (fun k => (k, g k))) := by
  induction l generalizing init with
  | nil => simp
  | cons x xs ih =>
    rw [List.foldlM_cons]
    have hx : push_score c init x = some (init ++ [(x, g x)]) := by
      simp [push_score, hg x (by simp)]
    rw [hx]
    simp only [Option.bind_eq_bind, Option.some_bind]
    rw [ih (fun k hk => hg k (List.mem_cons_of_mem _ hk))]
    simp

/-- Below the largest `size_t` the counter of line 71 does not wrap. -/
theorem keysize_values_eq (min_size max_size : Nat) (hmax : max_size + 1 < 2 ^ 64) :
    keysize_values min_size max_size = List.range' min_size (max_size + 1 - min_size) := by
  unfold keysize_values
  rw [if_pos hmax, List.append_nil]

theorem keysize_scores_eq (c : Str) (min_size max_size : Nat) (h1 : 1 ≤ min_size)
    (hmax : max_size + 1 < 2 ^ 64) :
    keysize_scores c min_size max_size
      = some ((List.range' min_size (max_size + 1 - min_size)).map
          (fun k => (k, (average_normalized_distance c k).getD Dbl.nan))) := by
  unfold keysize_scores
  rw [keysize_values_eq min_size max_size hmax]
  rw [foldlM_push_score c (fun k => (average_normalized_distance c k).getD Dbl.nan)]
  · simp
  · intro k hk
    have hk1 : 1 ≤ k := by
      have := (List.mem_range'_1.mp hk).1
      omega
    obtain ⟨s, hs, _⟩ := average_normalized_distance_ne_nan c k hk1
    rw [hs]
    rfl

/-- What `find_best_key_size` returns for bounds `1 ≤ min_size ≤ max_size`
below the largest `size_t`: the first candidate of least score. -/
theorem find_best_key_size_core (c : Str) (min_size max_size : Nat)
    (h1 : 1 ≤ min_size) (h2 : min_size ≤ max_size) (hmax : max_size + 1 < 2 ^ 64) :
    ∃ k sk, find_best_key_size c min_size max_size = some k
      ∧ min_size ≤ k ∧ k ≤ max_size
      ∧ average_normalized_distance c k = some sk
      ∧ (∀ j, min_size ≤ j → j ≤ max_size →
          ∃ sj, average_normalized_distance c j = some sj ∧ Dbl.le sk sj = true)
      ∧ (∀ j, min_size ≤ j → j < k →
          ∃ sj, average_normalized_distance c j = some sj ∧ Dbl.lt sk sj = true) := by
  set g : Nat → Dbl := fun k => (average_normalized_distance c k).getD Dbl.nan with hgdef
  have hg : ∀ k, 1 ≤ k → average_normalized_distance c k = some (g k) ∧ g k ≠ Dbl.nan := by
    intro k hk
    obtain ⟨s, hs, hn⟩ := average_normalized_distance_ne_nan c k hk
    simp only [hgdef, hs, Option.getD_some]
    exact ⟨trivial, hn⟩
  set l := (List.range' min_size (max_size + 1 - min_size)).map (fun k => (k, g k)) with hl
  have hlen : l.length = max_size + 1 - min_size := by simp [hl]
  have hget2 : ∀ j, j < max_size + 1 - min_size →
      l[j]? = some (min_size + j, g (min_size + j)) := by
    intro j hj
    rw [hl, List.getElem?_map, List.getElem?_range' _ _ hj]
    simp
  have hget : ∀ (j : Nat) (z : Nat × Dbl), l[j]? = some z →
      j < max_size + 1 - min_size ∧ z = (min_size + j, g (min_size + j)) := by
    intro j z hz
    have hj : j < max_size + 1 - min_size := by
      by_contra hcon
      rw [List.getElem?_eq_none (by omega)] at hz
      exact absurd hz (by simp)
    rw [hget2 j hj] at hz
    exact ⟨hj, (Option.some.inj hz).symm⟩
  have hmem : ∀ z ∈ l, z.2 ≠ Dbl.nan := by
    intro z hz
    rw [hl, List.mem_map] at hz
    obtain ⟨k, hk, rfl⟩ := hz
    exact (hg k (by have := (List.mem_range'_1.mp hk).1; omega)).2
  have hne : l ≠ [] := by
    intro h
    have := hget2 0 (by omega)
    rw [h] at this
    simp at this
  obtain ⟨i, r, hmin, hir, hle, hlt⟩ := min_element_spec (fun a b => Dbl.lt a.2 b.2) l hne
    (fun a _ b _ h => Dbl.lt_asymm a.2 b.2 h)
    (fun a _ b _ z hz h => Dbl.lt_cotrans a.2 b.2 z.2 (hmem z hz) h)
  obtain ⟨hi, hr⟩ := hget i r hir
  subst hr
  refine ⟨min_size + i, g (min_size + i), ?_, by omega, by omega, (hg _ (by omega)).1, ?_, ?_⟩
  · unfold find_best_key_size
    rw [keysize_scores_eq c min_size max_size h1 hmax]
    simp only []
    rw [hmin]
  · intro j hj1 hj2
    refine ⟨g j, (hg j (by omega)).1, ?_⟩
    have hj := hget2 (j - min_size) (by omega)
    have e : min_size + (j - min_size) = j := by omega
    rw [e] at hj
    have := hle _ _ hj
    exact Dbl.le_of_not_lt _ _ (hg _ (by omega)).2 (hg _ (by omega)).2 this
  · intro j hj1 hj2
    refine ⟨g j, (hg j (by omega)).1, ?_⟩
    have hj := hget2 (j - min_size) (by omega)
    have e : min_size + (j - min_size) = j := by omega
    rw [e] at hj
    exact hlt _ _ (by omega) hj

/-- C5, amended: for bounds `1 ≤ min_size ≤ max_size < 2^64 - 1`,
`find_best_key_size` returns a size `k` of the range whose score is less than
or equal to the score of every candidate of the range and strictly less than
the score of every smaller candidate. -/
theorem find_best_key_size_spec (c : Str) (min_size max_size : Nat)
    (h1 : 1 ≤ min_size) (h2 : min_size ≤ max_size) (hmax : max_size + 1 < 2 ^ 64) :
    ∃ k sk, find_best_key_size c min_size max_size = some k
      ∧ min_size ≤ k ∧ k ≤ max_size
      ∧ average_normalized_distance c k = some sk
      ∧ (∀ j, min_size ≤ j → j ≤ max_size →
          ∃ sj, average_normalized_distance c j = some sj ∧ Dbl.le sk sj = true)
      ∧ (∀ j, min_size ≤ j → j < k →
          ∃ sj, average_normalized_distance c j = some sj ∧ Dbl.lt sk sj = true) :=
  find_best_key_size_core c min_size max_size h1 h2 hmax

theorem find_best_key_size_spec_witness :
    ∃ k sk, find_best_key_size [1, 2, 3, 4, 5, 6, 7, 8, 9, 10] 2 40 = some k
      ∧ 2 ≤ k ∧ k ≤ 40
      ∧ average_normalized_distance [1, 2, 3, 4, 5, 6, 7, 8, 9, 10] k = some sk
      ∧ (∀ j, 2 ≤ j → j ≤ 40 →
          ∃ sj, average_normalized_distance [1, 2, 3, 4, 5, 6, 7, 8, 9, 10] j = some sj
            ∧ Dbl.le sk sj = true)
      ∧ (∀ j, 2 ≤ j → j < k →
          ∃ sj, average_normalized_distance [1, 2, 3, 4, 5, 6, 7, 8, 9, 10] j = some sj
            ∧ Dbl.lt sk sj = true) :=
  find_best_key_size_spec [1, 2, 3, 4, 5, 6, 7, 8, 9, 10] 2 40 (by decide) (by decide)
    (by decide)

/-- C5 as stated fails: for the bounds `min_size = max_size = 2^64 - 1`, the
largest `size_t`, the counter of line 71 takes the value `2^64 - 1` and then
wraps to 0, where line 50 divides by zero: no key size is returned. -/
theorem find_best_key_size_wraps :
    keysize_values 18446744073709551615 18446744073709551615 = [18446744073709551615, 0]
    ∧ average_normalized_distance [1, 2, 3] 18446744073709551615 = some Dbl.pinf
    ∧ average_normalized_distance [1, 2, 3] 0 = none
    ∧ find_best_key_size [1, 2, 3] 18446744073709551615 18446744073709551615 = none := by
  decide!

/-! ## break_into_blocks -/

theorem getElem?_chunk (l : Str) (k j m : Nat) :
    (chunk l k j)[m]? = if m < k then l[j * k + m]? else none := by
  unfold chunk
  rw [List.getElem?_take, List.getElem?_drop]

theorem mul_div_le_self (i k : Nat) : i / k * k ≤ i := Nat.div_mul_le_self i k

theorem lt_div_mul_add (i k : Nat) (hk : 0 < k) : i < i / k * k + k := by
  have := Nat.div_add_mod i k
  have := Nat.mod_lt i hk
  have : k * (i / k) = i / k * k := Nat.mul_comm _ _
  omega

/-- Appending byte `i` of the ciphertext changes block `i / k` only. -/
theorem chunk_take_succ (c : Str) (k i j : Nat) (hk : 0 < k) (hi : i < c.length) :
    chunk (c.take (i + 1)) k j
      = if j = i / k then chunk (c.take i) k j ++ [c.getD i 0] else chunk (c.take i) k j := by
  have hlo := mul_div_le_self i k
  have hhi := lt_div_mul_add i k hk
  apply List.ext_getElem?
  intro m
  by_cases hj : j = i / k
  · rw [if_pos hj]
    subst hj
    have hlen : (chunk (c.take i) k (i / k)).length = i - i / k * k := by
      unfold chunk
      rw [List.length_take, List.length_drop, List.length_take]
      omega
    rw [List.getElem?_append, hlen, getElem?_chunk, getElem?_chunk, List.getElem?_take,
      List.getElem?_take]
    by_cases hm : m < k
    · simp only [hm, if_true]
      by_cases h1 : i / k * k + m < i
      · rw [if_pos (by omega), if_pos h1, if_pos (by omega)]
      · by_cases h2 : i / k * k + m = i
        · rw [if_pos (by omega), if_neg (by omega), h2]
          have : m - (i - i / k * k) = 0 := by omega
          rw [this, List.getD_eq_getElem?_getD, List.getElem?_eq_getElem hi]
          simp
        · rw [if_neg (by omega), if_neg (by omega)]
          have : m - (i - i / k * k) ≠ 0 := by omega
          rw [List.getElem?_eq_none (by simp; omega)]
    · simp only [hm, if_false]
      rw [if_neg (by omega)]
      rw [List.getElem?_eq_none (by simp; omega)]
  · rw [if_neg hj, getElem?_chunk, getElem?_chunk, List.getElem?_take, List.getElem?_take]
    by_cases hm : m < k
    · simp only [hm, if_true]
      rcases Nat.lt_or_gt_of_ne hj with h | h
      · have : (j + 1) * k ≤ i / k * k := Nat.mul_le_mul_right k h
        have e : (j + 1) * k = j * k + k := by ring
        rw [if_pos (by omega), if_pos (by omega)]
      · have : (i / k + 1) * k ≤ j * k := Nat.mul_le_mul_right k h
        have e : (i / k + 1) * k = i / k * k + k := by ring
        rw [if_neg (by omega), if_neg (by omega)]
    · simp only [hm, if_false]

theorem chunk_nil (k j : Nat) : chunk [] k j = [] := by
  simp [chunk]

theorem div_lt_blocks (n k i : Nat) (hk : 0 < k) (hi : i < n) : i / k < (n + k - 1) / k := by
  rw [Nat.div_lt_iff_lt_mul hk]
  have h1 : n + k - 1 < (n + k - 1) / k * k + k := lt_div_mul_add _ k hk
  have h2 := mul_div_le_self (n + k - 1) k
  by_contra hcon
  push_neg at hcon
  omega

/-- The loop of lines 86-88 run for `i` iterations. -/
theorem blocks_loop (c : Str) (k i : Nat) (hk : 0 < k) (hi : i ≤ c.length) :
    (List.range i).foldlM
        (push_to_block c k)
        (List.replicate ((c.length + k - 1) / k) [])
      = some ((List.range ((c.length + k - 1) / k)).map (fun j => chunk (c.take i) k j)) := by
  induction i with
  | zero =>
    simp only [List.range_zero, List.foldlM_nil, List.take_zero, chunk_nil]
    congr 1
    apply List.ext_getElem?
    intro n
    rw [List.getElem?_replicate, List.getElem?_map]
    by_cases h : n < (c.length + k - 1) / k
    · simp [h, List.getElem?_range h]
    · simp [h, List.getElem?_eq_none (by simpa using h : (List.range _).length ≤ n)]
  | succ i ih =>
    have hlt : i < c.length := hi
    have hb := div_lt_blocks c.length k i hk hlt
    rw [List.range_succ, List.foldlM_append, ih (by omega)]
    simp only [push_to_block, Option.bind_eq_bind, Option.some_bind, List.foldlM_cons, List.foldlM_nil,
      List.getElem?_map, List.getElem?_range hb, Option.map_some', Option.bind_some]
    congr 1
    apply List.ext_getElem?
    intro n
    rw [List.getElem?_set, List.getElem?_map, List.getElem?_map]
    by_cases hn : n < (c.length + k - 1) / k
    · rw [List.getElem?_range hn]
      simp only [Option.map_some', List.length_map, List.length_range]
      rw [chunk_take_succ c k i n hk hlt]
      by_cases e : i / k = n
      · subst e
        simp [hb]
      · have e2 : ¬ n = i / k := fun h => e h.symm
        simp [e, e2]
    · rw [List.getElem?_eq_none (by simpa using hn : (List.range _).length ≤ n)]
      have e : ¬ i / k = n := by omega
      simp [e]

/-- When the sum of line 85 does not wrap, the blocks are the chunks of `c`. -/
theorem break_into_blocks_eq (c : Str) (k : Nat) (hk : 1 ≤ k) (hfit : c.length + k ≤ 2 ^ 64) :
    break_into_blocks c k
      = some ((List.range ((c.length + k - 1) / k)).map (fun j => chunk c k j)) := by
  unfold break_into_blocks
  rw [if_neg (by omega), Nat.mod_eq_of_lt (by omega : c.length + k - 1 < 2 ^ 64),
    blocks_loop c k c.length hk (le_refl _), List.take_length]


theorem blocks_bounds (n k : Nat) (hk : 0 < k) (hn : 0 < n) :
    0 < (n + k - 1) / k ∧ ((n + k - 1) / k - 1) * k < n ∧ n ≤ (n + k - 1) / k * k := by
  have h1 := lt_div_mul_add (n + k - 1) k hk
  have h2 := mul_div_le_self (n + k - 1) k
  have hpos : 0 < (n + k - 1) / k := Nat.div_pos (by omega) hk
  refine ⟨hpos, ?_, by omega⟩
  have e : ((n + k - 1) / k - 1) * k + k = (n + k - 1) / k * k := by
    have : ((n + k - 1) / k - 1 + 1) * k = ((n + k - 1) / k - 1) * k + k := by ring
    rw [← this, Nat.sub_add_cancel hpos]
  omega

theorem ceil_div_eq (n k : Nat) (hk : 0 < k) :
    ⌈(n : ℚ) / (k : ℚ)⌉₊ = (n + k - 1) / k := by
  have hkq : (0 : ℚ) < (k : ℚ) := by exact_mod_cast hk
  rcases Nat.eq_zero_or_pos n with h0 | hn
  · subst h0
    have : (0 + k - 1) / k = 0 := Nat.div_eq_of_lt (by omega)
    rw [this]
    simp
  · obtain ⟨hpos, hlo, hhi⟩ := blocks_bounds n k hk hn
    rw [Nat.ceil_eq_iff (by omega)]
    constructor
    · rw [lt_div_iff₀ hkq]
      exact_mod_cast hlo
    · rw [div_le_iff₀ hkq]
      exact_mod_cast hhi

theorem flatten_chunks (c : Str) (k m : Nat) :
    ((List.range m).map (fun j => chunk c k j)).flatten = c.take (m * k) := by
  induction m with
  | zero => simp
  | succ m ih =>
    rw [List.range_succ, List.map_append, List.flatten_append, ih]
    have : (m + 1) * k = m * k + k := by ring
    rw [this, List.take_add]
    simp [chunk]

theorem getD_blocks (c : Str) (k n j : Nat) (hj : j < n) :
    ((List.range n).map (fun j => chunk c k j)).getD j [] = chunk c k j := by
  rw [List.getD_eq_getElem?_getD, List.getElem?_map, List.getElem?_range hj]
  rfl

/-- C7, amended: for every ciphertext `c` and key size `k ≥ 1` with
`len c + k ≤ 2^64` (the sum of line 85 does not pass the largest `size_t`),
`break_into_blocks c k` returns exactly `ceil (len c / k)` blocks; every block but the last has
exactly `k` bytes, the last has between 1 and `k` bytes, and the blocks
concatenated in order give `c`. -/
theorem break_into_blocks_spec (c : Str) (k : Nat) (hk : 1 ≤ k)
    (hfit : c.length + k ≤ 2 ^ 64) :
    ∃ blocks, break_into_blocks c k = some blocks
      ∧ blocks.length = ⌈(c.length : ℚ) / (k : ℚ)⌉₊
      ∧ (∀ j, j + 1 < blocks.length → (blocks.getD j []).length = k)
      ∧ (∀ j, j + 1 = blocks.length →
          1 ≤ (blocks.getD j []).length ∧ (blocks.getD j []).length ≤ k)
      ∧ blocks.flatten = c := by
  refine ⟨_, break_into_blocks_eq c k hk hfit, ?_, ?_, ?_, ?_⟩
  · rw [ceil_div_eq c.length k hk]
    simp
  · intro j hj
    simp only [List.length_map, List.length_range] at hj
    rw [getD_blocks c k _ j (by omega)]
    have hn : 0 < c.length := by
      rcases Nat.eq_zero_or_pos c.length with h0 | hn
      · rw [h0] at hj
        have : (0 + k - 1) / k = 0 := Nat.div_eq_of_lt (by omega)
        omega
      · exact hn
    obtain ⟨hpos, hlo, hhi⟩ := blocks_bounds c.length k hk hn
    apply chunk_length
    have : (j + 1) * k ≤ ((c.length + k - 1) / k - 1) * k := Nat.mul_le_mul_right k (by omega)
    omega
  · intro j hj
    simp only [List.length_map, List.length_range] at hj
    rw [getD_blocks c k _ j (by omega)]
    have hn : 0 < c.length := by
      rcases Nat.eq_zero_or_pos c.length with h0 | hn
      · rw [h0] at hj
        have : (0 + k - 1) / k = 0 := Nat.div_eq_of_lt (by omega)
        omega
      · exact hn
    obtain ⟨hpos, hlo, hhi⟩ := blocks_bounds c.length k hk hn
    have e : j = (c.length + k - 1) / k - 1 := by omega
    unfold chunk
    rw [List.length_take, List.length_drop]
    subst e
    omega
  · rw [flatten_chunks]
    rcases Nat.eq_zero_or_pos c.length with h0 | hn
    · have : c = [] := List.length_eq_zero.mp h0
      subst this
      simp
    · obtain ⟨hpos, hlo, hhi⟩ := blocks_bounds c.length k hk hn
      exact List.take_of_length_le hhi

theorem break_into_blocks_spec_witness :
    ∃ blocks, break_into_blocks [1, 2, 3, 4, 5, 6, 7, 8, 9, 10] 3 = some blocks
      ∧ blocks.length = ⌈(([1, 2, 3, 4, 5, 6, 7, 8, 9, 10] : Str).length : ℚ) / ((3 : Nat) : ℚ)⌉₊
      ∧ (∀ j, j + 1 < blocks.length → (blocks.getD j []).length = 3)
      ∧ (∀ j, j + 1 = blocks.length →
          1 ≤ (blocks.getD j []).length ∧ (blocks.getD j []).length ≤ 3)
      ∧ blocks.flatten = [1, 2, 3, 4, 5, 6, 7, 8, 9, 10] :=
  break_into_blocks_spec [1, 2, 3, 4, 5, 6, 7, 8, 9, 10] 3 (by decide) (by decide)

/-- C7 as stated fails: for a ciphertext of three bytes and the key size
`2^64 - 1` the sum `3 + (2^64 - 1) - 1` of line 85 wraps to 1, so no block is
allocated where `ceil (3 / k)` is 1, and line 87 writes to `blocks[0]`, outside
the vector. -/
theorem break_into_blocks_wraps :
    (([1, 2, 3] : Str).length + 18446744073709551615 - 1) % 2 ^ 64 / 18446744073709551615 = 0
    ∧ ⌈((([1, 2, 3] : Str).length : Nat) : ℚ) / ((18446744073709551615 : Nat) : ℚ)⌉₊ = 1
    ∧ break_into_blocks [1, 2, 3] 18446744073709551615 = none := by
  refine ⟨by decide, ?_, by decide!⟩
  rw [Nat.ceil_eq_iff (by decide)]
  norm_num

/-! ## transpose_blocks -/

/-- The loop of lines 97-99 run for `m` iterations. -/
theorem column_loop (t : List Str) (block : Str) (m : Nat) (hm : m ≤ block.length)
    (hlen : block.length ≤ t.length) :
    (List.range m).foldlM (push_to_column block) t
      = some ((List.range t.length).map
          (fun i => t.getD i [] ++ ((block.take m)[i]?).toList)) := by
  induction m with
  | zero =>
    simp only [List.range_zero, List.foldlM_nil, List.take_zero]
    congr 1
    apply List.ext_getElem?
    intro n
    rw [List.getElem?_map]
    by_cases h : n < t.length
    · rw [List.getElem?_range h]
      simp [List.getD_eq_getElem?_getD, List.getElem?_eq_getElem h]
    · rw [List.getElem?_eq_none (by omega), List.getElem?_eq_none (by simpa using h)]
      rfl
  | succ m ih =>
    have hmt : m < t.length := by omega
    have hmb : m < block.length := by omega
    rw [List.range_succ, List.foldlM_append, ih (by omega)]
    simp only [push_to_column, Option.bind_eq_bind, Option.some_bind, List.foldlM_cons,
      List.foldlM_nil, List.getElem?_map, List.getElem?_range hmt, Option.map_some',
      Option.bind_some]
    congr 1
    apply List.ext_getElem?
    intro n
    rw [List.getElem?_set, List.getElem?_map, List.getElem?_map]
    by_cases hn : n < t.length
    · rw [List.getElem?_range hn]
      simp only [Option.map_some', List.length_map, List.length_range, List.getElem?_take]
      by_cases e : m = n
      · subst e
        simp [hmt, List.getD_eq_getElem?_getD, List.getElem?_eq_getElem hmb]
      · simp only [e, if_false]
        by_cases h2 : n < m
        · rw [if_pos h2, if_pos (by omega)]
        · rw [if_neg h2, if_neg (by omega)]
    · rw [List.getElem?_eq_none (by simpa using hn : (List.range _).length ≤ n)]
      have e : ¬ m = n := by omega
      simp [e]

theorem transpose_block_eq (t : List Str) (block : Str) (hlen : block.length ≤ t.length) :
    transpose_block t block
      = some ((List.range t.length).map (fun i => t.getD i [] ++ (block[i]?).toList)) := by
  unfold transpose_block
  rw [column_loop t block block.length (le_refl _) hlen, List.take_length]

/-- The loop of lines 96-100 over blocks that are no longer than the column vector. -/
theorem transpose_loop (bs : List Str) (t : List Str) (h : ∀ b ∈ bs, b.length ≤ t.length) :
    bs.foldlM transpose_block t
      = some ((List.range t.length).map
          (fun i => t.getD i [] ++ bs.filterMap (fun b => b[i]?))) := by
  induction bs generalizing t with
  | nil =>
    simp only [List.foldlM_nil, List.filterMap_nil, List.append_nil]
    congr 1
    apply List.ext_getElem?
    intro n
    rw [List.getElem?_map]
    by_cases h : n < t.length
    · rw [List.getElem?_range h]
      simp [List.getD_eq_getElem?_getD, List.getElem?_eq_getElem h]
    · rw [List.getElem?_eq_none (by omega), List.getElem?_eq_none (by simpa using h)]
      rfl
  | cons b bs ih =>
    rw [List.foldlM_cons, transpose_block_eq t b (h b (by simp))]
    simp only [Option.bind_eq_bind, Option.some_bind]
    rw [ih _ (by
      intro b' hb'
      simp only [List.length_map, List.length_range]
      exact h b' (List.mem_cons_of_mem _ hb'))]
    simp only [List.length_map, List.length_range]
    congr 1
    apply List.map_congr_left
    intro i hi
    have hi2 : i < t.length := List.mem_range.mp hi
    rw [List.getD_eq_getElem?_getD, List.getElem?_map, List.getElem?_range hi2]
    simp only [Option.map_some', Option.getD_some, List.append_assoc]
    congr 1
    cases hb : b[i]? <;> simp [List.filterMap_cons, hb]

theorem getD_replicate_nil (n i : Nat) : (List.replicate n ([] : Str)).getD i [] = [] := by
  rw [List.getD_eq_getElem?_getD, List.getElem?_replicate]
  split <;> rfl

theorem transpose_blocks_of_ne_nil (blocks : List Str) (h : blocks ≠ []) :
    transpose_blocks blocks
      = blocks.foldlM transpose_block (List.replicate (blocks.getD 0 []).length []) := by
  cases blocks with
  | nil => exact absurd rfl h
  | cons b bs => rfl

theorem chunk_zero_length (c : Str) (k : Nat) : (chunk c k 0).length = min k c.length := by
  simp [chunk]

theorem chunk_length_le (c : Str) (k j : Nat) : (chunk c k j).length ≤ min k c.length := by
  unfold chunk
  rw [List.length_take, List.length_drop]
  omega

/-- The columns of the blocks of a ciphertext. -/
theorem transpose_chunks_eq (c : Str) (k : Nat) (hk : 1 ≤ k) :
    transpose_blocks ((List.range ((c.length + k - 1) / k)).map (fun j => chunk c k j))
      = some ((List.range (min k c.length)).map
          (fun j => (List.range ((c.length + k - 1) / k)).filterMap
            (fun b => (c)[b * k + j]?))) := by
  rcases Nat.eq_zero_or_pos c.length with h0 | hn
  · have hnb : (c.length + k - 1) / k = 0 := by
      rw [h0]
      exact Nat.div_eq_of_lt (by omega)
    rw [hnb, h0]
    simp [transpose_blocks]
  · obtain ⟨hpos, _, _⟩ := blocks_bounds c.length k hk hn
    have hne : (List.range ((c.length + k - 1) / k)).map (fun j => chunk c k j) ≠ [] := by
      intro h
      have := congrArg List.length h
      simp at this
      omega
    have h0 : ((List.range ((c.length + k - 1) / k)).map (fun j => chunk c k j)).getD 0 []
        = chunk c k 0 := by
      rw [List.getD_eq_getElem?_getD, List.getElem?_map, List.getElem?_range hpos]
      rfl
    rw [transpose_blocks_of_ne_nil _ hne, h0, chunk_zero_length, transpose_loop]
    · simp only [List.length_replicate]
      congr 1
      apply List.map_congr_left
      intro j hj
      have hj2 : j < min k c.length := List.mem_range.mp hj
      rw [getD_replicate_nil, List.nil_append, List.filterMap_map]
      apply List.filterMap_congr
      intro b _
      simp only [Function.comp, getElem?_chunk]
      rw [if_pos (by omega)]
    · intro b hb
      rw [List.mem_map] at hb
      obtain ⟨j, _, rfl⟩ := hb
      rw [List.length_replicate]
      exact chunk_length_le c k j

theorem not_none_of_le (f : Nat → Option Byte) (hmono : ∀ b, f b = none → f (b + 1) = none)
    (n b : Nat) (hb : b ≤ n) (hn : f n ≠ none) : f b ≠ none := by
  induction n with
  | zero =>
    have : b = 0 := by omega
    subst this
    exact hn
  | succ n ih =>
    rcases Nat.eq_or_lt_of_le hb with h | h
    · subst h; exact hn
    · exact ih (by omega) (fun h0 => hn (hmono n h0))

/-- Collecting the values of a function that is defined on an initial segment
of the natural numbers. -/
theorem getElem?_filterMap_range (f : Nat → Option Byte)
    (hmono : ∀ b, f b = none → f (b + 1) = none) (n t : Nat) :
    ((List.range n).filterMap f)[t]? = if t < n then f t else none := by
  induction n generalizing t with
  | zero => simp
  | succ n ih =>
    rw [List.range_succ, List.filterMap_append]
    cases hfn : f n with
    | none =>
      simp only [List.filterMap_cons, hfn, List.filterMap_nil, List.append_nil]
      rw [ih]
      by_cases h1 : t < n
      · rw [if_pos h1, if_pos (by omega)]
      · rw [if_neg h1]
        by_cases h2 : t < n + 1
        · have : t = n := by omega
          subst this
          rw [if_pos h2, hfn]
        · rw [if_neg h2]
    | some x =>
      have hlen : ((List.range n).filterMap f).length = n := by
        apply le_antisymm
        · calc ((List.range n).filterMap f).length ≤ (List.range n).length :=
              List.length_filterMap_le _ _
            _ = n := List.length_range n
        · by_contra hcon
          push_neg at hcon
          rcases Nat.eq_zero_or_pos n with h0 | hpos
          · omega
          · have h1 := ih (n - 1)
            rw [if_pos (by omega)] at h1
            have h2 : ((List.range n).filterMap f)[n - 1]? = none :=
              List.getElem?_eq_none (by omega)
            rw [h2] at h1
            exact not_none_of_le f hmono n (n - 1) (by omega) (by rw [hfn]; simp) h1.symm
      simp only [List.filterMap_cons, hfn, List.filterMap_nil]
      rw [List.getElem?_append, hlen, ih]
      by_cases h1 : t < n
      · rw [if_pos h1, if_pos h1, if_pos (by omega)]
      · rw [if_neg h1]
        by_cases h2 : t < n + 1
        · have : t = n := by omega
          subst this
          rw [if_pos h2, hfn]
          simp
        · rw [if_neg h2]
          have : t - n ≠ 0 := by omega
          rw [List.getElem?_eq_none (by simp; omega)]

/-- Entry `t` of column `j` is byte `j + t * k` of the ciphertext. -/
theorem getElem?_column_blocks (c : Str) (k j t : Nat) (hk : 0 < k) :
    ((List.range ((c.length + k - 1) / k)).filterMap (fun b => (c)[b * k + j]?))[t]?
      = (c)[j + t * k]? := by
  rw [getElem?_filterMap_range (fun b => (c)[b * k + j]?)]
  · by_cases h : t < (c.length + k - 1) / k
    · rw [if_pos h, Nat.add_comm]
    · rw [if_neg h]
      symm
      apply List.getElem?_eq_none
      rcases Nat.eq_zero_or_pos c.length with h0 | hn
      · omega
      · obtain ⟨_, _, hhi⟩ := blocks_bounds c.length k hk hn
        have : (c.length + k - 1) / k * k ≤ t * k := Nat.mul_le_mul_right k (by omega)
        omega
  · intro b hb
    have h1 : c.length ≤ b * k + j := by
      by_contra hcon
      rw [List.getElem?_eq_getElem (by omega)] at hb
      exact absurd hb (by simp)
    apply List.getElem?_eq_none
    have : (b + 1) * k = b * k + k := by ring
    omega

theorem filterMap_getElem? (c : Str) (g : Nat → Nat) (l : List Nat) :
    l.filterMap (fun b => (c)[g b]?)
      = ((l.filter (fun b => g b < c.length)).map g).map (fun p => c.getD p 0) := by
  induction l with
  | nil => rfl
  | cons x xs ih =>
    by_cases h : g x < c.length
    · simp [List.filterMap_cons, List.filter_cons, h, List.getElem?_eq_getElem h, ih,
        List.getD_eq_getElem?_getD]
    · have h2 : (c)[g x]? = none := List.getElem?_eq_none (by omega)
      simp [List.filterMap_cons, List.filter_cons, h, h2, ih]

theorem positions_eq (n k j : Nat) (hk : 0 < k) (hj : j < k) :
    ((List.range ((n + k - 1) / k)).filter (fun b => b * k + j < n)).map (fun b => b * k + j)
      = (List.range n).filter (fun p => p % k = j) := by
  have hs1 : List.Sorted (· < ·)
      (((List.range ((n + k - 1) / k)).filter (fun b => b * k + j < n)).map
        (fun b => b * k + j)) := by
    apply List.Pairwise.map _ _ (List.Pairwise.filter _ (List.pairwise_lt_range _))
    intro a b hab
    have : (a + 1) * k ≤ b * k := Nat.mul_le_mul_right k hab
    have e : (a + 1) * k = a * k + k := by ring
    show a * k + j < b * k + j
    omega
  have hs2 : List.Sorted (· < ·) ((List.range n).filter (fun p => p % k = j)) :=
    List.Sorted.filter _ (List.sorted_lt_range n)
  apply List.eq_of_perm_of_sorted _ hs1 hs2
  rw [List.perm_ext_iff_of_nodup hs1.nodup hs2.nodup]
  intro p
  simp only [List.mem_map, List.mem_filter, List.mem_range, decide_eq_true_eq]
  constructor
  · rintro ⟨b, ⟨_, hb2⟩, rfl⟩
    refine ⟨hb2, ?_⟩
    rw [Nat.add_comm, Nat.add_mul_mod_self_right, Nat.mod_eq_of_lt hj]
  · rintro ⟨hp, hmod⟩
    have e : p / k * k + j = p := by
      have := Nat.div_add_mod p k
      rw [hmod, Nat.mul_comm] at this
      exact this
    exact ⟨p / k, ⟨div_lt_blocks n k p hk hp, by omega⟩, e⟩

theorem column_blocks_eq (c : Str) (k j : Nat) (hk : 0 < k) (hj : j < k) :
    (List.range ((c.length + k - 1) / k)).filterMap (fun b => (c)[b * k + j]?) = column c k j := by
  rw [filterMap_getElem? c (fun b => b * k + j), positions_eq c.length k j hk hj]
  rfl


theorem lt_length_iff_of_getElem? (l s : Str) (t p : Nat) (h : l[t]? = s[p]?) :
    t < l.length ↔ p < s.length := by
  constructor
  · intro ht
    by_contra hcon
    rw [List.getElem?_eq_getElem ht, List.getElem?_eq_none (by omega)] at h
    exact absurd h (by simp)
  · intro hp
    by_contra hcon
    rw [List.getElem?_eq_getElem hp, List.getElem?_eq_none (by omega)] at h
    exact absurd h.symm (by simp)

/-- Columns whose entries are the bytes `j + t * k` have lengths that do not
increase with `j` and differ by at most one. -/
theorem column_lengths (s A B : Str) (k i j : Nat) (hij : i ≤ j) (hjk : j < k)
    (hA : ∀ t, A[t]? = s[i + t * k]?) (hB : ∀ t, B[t]? = s[j + t * k]?) :
    B.length ≤ A.length ∧ A.length ≤ B.length + 1 := by
  constructor
  · by_contra hcon
    push_neg at hcon
    have h1 := (lt_length_iff_of_getElem? B s A.length _ (hB A.length)).mp hcon
    have h2 := (lt_length_iff_of_getElem? A s A.length _ (hA A.length)).mpr (by omega)
    omega
  · by_contra hcon
    push_neg at hcon
    have h1 := (lt_length_iff_of_getElem? A s (B.length + 1) _ (hA (B.length + 1))).mp hcon
    have e : (B.length + 1) * k = B.length * k + k := by ring
    have h2 := (lt_length_iff_of_getElem? B s B.length _ (hB B.length)).mpr (by omega)
    omega

theorem getD_columns (c : Str) (k n j : Nat) (hj : j < n) :
    ((List.range n).map
        (fun j => (List.range ((c.length + k - 1) / k)).filterMap
          (fun b => (c)[b * k + j]?))).getD j []
      = (List.range ((c.length + k - 1) / k)).filterMap (fun b => (c)[b * k + j]?) := by
  rw [List.getD_eq_getElem?_getD, List.getElem?_map, List.getElem?_range hj]
  rfl

/-- C8, amended: for every ciphertext `c` and key size `k ≥ 1` with
`len c + k ≤ 2^64` (the sum of line 85 does not pass the largest `size_t`),
`transpose_blocks (break_into_blocks c k)` succeeds (no index leaves the
column vector) with exactly `min k (len c)` columns; column `j` is the bytes of
`c` at the positions congruent to `j` modulo `k` in ascending order, that is
`c[j], c[j+k], c[j+2k], ...`; the column lengths do not increase with `j` and
differ by at most one. -/
theorem transpose_blocks_spec (c : Str) (k : Nat) (hk : 1 ≤ k)
    (hfit : c.length + k ≤ 2 ^ 64) :
    ∃ blocks cols, break_into_blocks c k = some blocks
      ∧ transpose_blocks blocks = some cols
      ∧ cols.length = min k c.length
      ∧ (∀ j, j < cols.length →
          cols.getD j [] = column c k j ∧ ∀ t, (cols.getD j [])[t]? = (c)[j + t * k]?)
      ∧ (∀ i j, i ≤ j → j < cols.length →
          (cols.getD j []).length ≤ (cols.getD i []).length
            ∧ (cols.getD i []).length ≤ (cols.getD j []).length + 1) := by
  refine ⟨_, _, break_into_blocks_eq c k hk hfit, transpose_chunks_eq c k hk, by simp, ?_, ?_⟩
  · intro j hj
    simp only [List.length_map, List.length_range] at hj
    rw [getD_columns c k _ j hj]
    exact ⟨column_blocks_eq c k j hk (by omega), fun t => getElem?_column_blocks c k j t hk⟩
  · intro i j hij hj
    simp only [List.length_map, List.length_range] at hj
    rw [getD_columns c k _ j hj, getD_columns c k _ i (by omega)]
    exact column_lengths c _ _ k i j hij (by omega)
      (fun t => getElem?_column_blocks c k i t hk)
      (fun t => getElem?_column_blocks c k j t hk)

theorem transpose_blocks_spec_witness :
    ∃ blocks cols, break_into_blocks [1, 2, 3, 4, 5, 6, 7, 8, 9, 10] 3 = some blocks
      ∧ transpose_blocks blocks = some cols
      ∧ cols.length = min 3 ([1, 2, 3, 4, 5, 6, 7, 8, 9, 10] : Str).length
      ∧ (∀ j, j < cols.length →
          cols.getD j [] = column [1, 2, 3, 4, 5, 6, 7, 8, 9, 10] 3 j
            ∧ ∀ t, (cols.getD j [])[t]? = ([1, 2, 3, 4, 5, 6, 7, 8, 9, 10] : Str)[j + t * 3]?)
      ∧ (∀ i j, i ≤ j → j < cols.length →
          (cols.getD j []).length ≤ (cols.getD i []).length
            ∧ (cols.getD i []).length ≤ (cols.getD j []).length + 1) :=
  transpose_blocks_spec [1, 2, 3, 4, 5, 6, 7, 8, 9, 10] 3 (by decide) (by decide)

/-- C8 as stated fails: for a ciphertext of three bytes and the key size
`2^64 - 1`, `break_into_blocks` writes outside its vector (the sum of line 85
wraps and no block is allocated), so `transpose_blocks` receives no blocks and
there are no `min k (len c) = 3` columns. -/
theorem transpose_blocks_wraps :
    min 18446744073709551615 ([1, 2, 3] : Str).length = 3
    ∧ break_into_blocks [1, 2, 3] 18446744073709551615 = none
    ∧ (break_into_blocks [1, 2, 3] 18446744073709551615).bind transpose_blocks = none := by
  decide!

/-! ## single_byte_xor -/

/-- C9, the code at a failing input: for the column "Hello" the key byte 0
leaves all five bytes printable, the maximum, yet `single_byte_xor` returns the
key byte 0x80, under which no byte is printable (score 0). -/
theorem single_byte_xor_hello :
    single_byte_xor [72, 101, 108, 108, 111] = (128, Dbl.fin 0)
      ∧ printable_score (xor_decrypted [72, 101, 108, 108, 111] 0) = 5
      ∧ printable_score (xor_decrypted [72, 101, 108, 108, 111] 128) = 0 := by
  decide!

theorem toChar_promote_xor_key (x : Byte) (key : Nat) (hkey : key < 256) :
    (toChar (promote x ^^^ key)).val = x.val ^^^ key := by
  have h := xor_mod_two_pow (promote x) key 8
  simp only [show (2 : Nat) ^ 8 = 256 from rfl] at h
  simp only [toChar]
  rw [h, promote_mod, Nat.mod_eq_of_lt hkey]

theorem toChar_xor_val (x b : Byte) : (toChar (x.val ^^^ b.val)).val = x.val ^^^ b.val := by
  simp only [toChar]
  apply Nat.mod_eq_of_lt
  exact Nat.xor_lt_two_pow (n := 8) x.isLt b.isLt

theorem xor_decrypted_eq_map (block : Str) (key : Nat) :
    xor_decrypted block key = block.map (fun c => toChar (promote c ^^^ key)) := by
  unfold xor_decrypted
  rw [foldl_push_eq_map]
  rfl

/-- Under the key byte that made the column, the candidate decryption is the text. -/
theorem xor_decrypted_xor_with (text : Str) (b : Byte) :
    xor_decrypted (xor_with text b) b.val = text := by
  rw [xor_decrypted_eq_map, xor_with, List.map_map]
  conv_rhs => rw [← List.map_id text]
  apply List.map_congr_left
  intro c _
  apply Fin.ext
  simp only [Function.comp, id]
  rw [toChar_promote_xor_key _ _ b.isLt, toChar_xor_val, Nat.xor_assoc, Nat.xor_self,
    Nat.xor_zero]

theorem score_loop_le (l : Str) (init : ℚ) :
    l.foldl
        (fun score c => if isprint (promote c) || isspace (promote c) then score + 1 else score)
        init
      ≤ init + l.length := by
  induction l generalizing init with
  | nil => simp
  | cons x xs ih =>
    rw [List.foldl_cons]
    refine le_trans (ih _) ?_
    rw [List.length_cons]
    push_cast
    split <;> linarith

theorem score_loop_all (l : Str) (init : ℚ)
    (h : ∀ c ∈ l, (isprint (promote c) || isspace (promote c)) = true) :
    l.foldl
        (fun score c => if isprint (promote c) || isspace (promote c) then score + 1 else score)
        init
      = init + l.length := by
  induction l generalizing init with
  | nil => simp
  | cons x xs ih =>
    rw [List.foldl_cons, if_pos (h x (by simp)), ih _ (fun c hc => h c (List.mem_cons_of_mem _ hc)),
      List.length_cons]
    push_cast
    ring

/-- C10, amended: for every key byte `b` and every text all of whose bytes are
printable ASCII or whitespace, the candidate key byte `b` decrypts the column
`text XOR b` back to the text, and its score, the length of the text, is the
highest that any of the 256 candidates reaches.  (Other candidates may reach it
too; which candidate is returned is not stated here.) -/
theorem true_key_scores_highest (b : Byte) (text : Str)
    (hp : ∀ c ∈ text, (isprint (promote c) || isspace (promote c)) = true) :
    xor_decrypted (xor_with text b) b.val = text
      ∧ printable_score (xor_decrypted (xor_with text b) b.val) = text.length
      ∧ ∀ key, key < 256 →
          printable_score (xor_decrypted (xor_with text b) key) ≤ text.length := by
  refine ⟨xor_decrypted_xor_with text b, ?_, ?_⟩
  · rw [xor_decrypted_xor_with]
    unfold printable_score
    rw [score_loop_all text 0 hp, zero_add]
  · intro key _
    unfold printable_score
    refine le_trans (score_loop_le _ 0) ?_
    rw [zero_add, xor_decrypted_eq_map, xor_with, List.length_map, List.length_map]

set_option maxRecDepth 8000 in
theorem true_key_scores_highest_witness :
    xor_decrypted (xor_with
        [116, 104, 101, 32, 113, 117, 105, 99, 107, 32, 98, 114, 111, 119, 110, 32, 102, 111, 120,
      32, 106, 117, 109, 112, 115] 88) (88 : Byte).val
      = [116, 104, 101, 32, 113, 117, 105, 99, 107, 32, 98, 114, 111, 119, 110, 32, 102, 111, 120,
      32, 106, 117, 109, 112, 115]
    ∧ printable_score (xor_decrypted (xor_with
        [116, 104, 101, 32, 113, 117, 105, 99, 107, 32, 98, 114, 111, 119, 110, 32, 102, 111, 120,
      32, 106, 117, 109, 112, 115] 88) (88 : Byte).val) = (25 : Nat)
    ∧ ∀ key, key < 256 →
        printable_score (xor_decrypted (xor_with
          [116, 104, 101, 32, 113, 117, 105, 99, 107, 32, 98, 114, 111, 119, 110, 32, 102, 111, 120,
      32, 106, 117, 109, 112, 115] 88) key) ≤ (25 : Nat) :=
  true_key_scores_highest 88
    [116, 104, 101, 32, 113, 117, 105, 99, 107, 32, 98, 114, 111, 119, 110, 32, 102, 111, 120,
      32, 106, 117, 109, 112, 115]
    (by decide)

/-- C10 as stated fails: the 25 printable bytes of "the quick brown fox jumps"
XOR-ed with the key byte 0x58 give a column for which `single_byte_xor`
returns the key byte 0x80 (score 0), not 0x58.  The key bytes 0x58 and 0 both
score 25 on this column, so the printable count alone does not single out
0x58. -/
theorem single_byte_xor_fox :
    xor_with [116, 104, 101, 32, 113, 117, 105, 99, 107, 32, 98, 114, 111, 119, 110, 32, 102,
        111, 120, 32, 106, 117, 109, 112, 115] 0x58
      = [44, 48, 61, 120, 41, 45, 49, 59, 51, 120, 58, 42, 55, 47, 54, 120, 62, 55, 32, 120,
          50, 45, 53, 40, 43]
    ∧ (∀ c ∈ ([116, 104, 101, 32, 113, 117, 105, 99, 107, 32, 98, 114, 111, 119, 110, 32, 102,
        111, 120, 32, 106, 117, 109, 112, 115] : Str),
          (isprint (promote c) || isspace (promote c)) = true)
    ∧ single_byte_xor
        [44, 48, 61, 120, 41, 45, 49, 59, 51, 120, 58, 42, 55, 47, 54, 120, 62, 55, 32, 120,
          50, 45, 53, 40, 43] = (128, Dbl.fin 0)
    ∧ printable_score (xor_decrypted
        [44, 48, 61, 120, 41, 45, 49, 59, 51, 120, 58, 42, 55, 47, 54, 120, 62, 55, 32, 120,
          50, 45, 53, 40, 43] 0x58) = 25
    ∧ printable_score (xor_decrypted
        [44, 48, 61, 120, 41, 45, 49, 59, 51, 120, 58, 42, 55, 47, 54, 120, 62, 55, 32, 120,
          50, 45, 53, 40, 43] 0) = 25 := by
  decide!

/-! ## find_best_key_size on a short ciphertext -/

/-- A ciphertext of fewer than `2 * min_size` bytes: every score is infinite and
the first candidate is returned. -/
theorem find_best_key_size_of_short (c : Str) (min_size max_size : Nat)
    (h1 : 1 ≤ min_size) (h2 : min_size ≤ max_size) (hmax : max_size + 1 < 2 ^ 64)
    (hshort : c.length < 2 * min_size) :
    (∀ k, min_size ≤ k → k ≤ max_size → average_normalized_distance c k = some Dbl.pinf)
      ∧ find_best_key_size c min_size max_size = some min_size := by
  have hinf : ∀ k, min_size ≤ k → average_normalized_distance c k = some Dbl.pinf := by
    intro k hk
    have hdiv : c.length / k < 2 := by
      rw [Nat.div_lt_iff_lt_mul (by omega)]
      calc c.length < 2 * min_size := hshort
        _ ≤ 2 * k := by omega
    rw [average_normalized_distance_eq c k (by omega), if_pos hdiv]
  refine ⟨fun k hk _ => hinf k hk, ?_⟩
  obtain ⟨k, sk, hfind, hlo, hhi, hsk, _, hlt⟩ :=
    find_best_key_size_core c min_size max_size h1 h2 hmax
  rw [hfind]
  congr 1
  by_contra hne
  obtain ⟨sj, hsj, hcmp⟩ := hlt min_size (le_refl _) (by omega)
  rw [hinf k hlo] at hsk
  rw [hinf min_size (le_refl _)] at hsj
  have e1 := Option.some.inj hsk
  have e2 := Option.some.inj hsj
  subst e1 e2
  simp [Dbl.lt] at hcmp

/-- C13, amended: for bounds `1 ≤ min_size ≤ max_size < 2^64 - 1` and a
ciphertext of fewer than `2 * min_size` bytes (the empty one included), every
candidate of the range scores `+infinity` and `find_best_key_size` returns
`min_size`. -/
theorem find_best_key_size_short (c : Str) (min_size max_size : Nat)
    (h1 : 1 ≤ min_size) (h2 : min_size ≤ max_size) (hmax : max_size + 1 < 2 ^ 64)
    (hshort : c.length < 2 * min_size) :
    (∀ k, min_size ≤ k → k ≤ max_size → average_normalized_distance c k = some Dbl.pinf)
      ∧ find_best_key_size c min_size max_size = some min_size :=
  find_best_key_size_of_short c min_size max_size h1 h2 hmax hshort

theorem find_best_key_size_short_witness :
    (∀ k, 2 ≤ k → k ≤ 40 → average_normalized_distance [72, 105, 33] k = some Dbl.pinf)
      ∧ find_best_key_size [72, 105, 33] 2 40 = some 2 :=
  find_best_key_size_short [72, 105, 33] 2 40 (by decide) (by decide) (by decide) (by decide)

/-- C13 as stated fails: for `min_size = max_size = 2^64 - 1` and a ciphertext
of three bytes (fewer than `2 * min_size`), the only candidate scores
`+infinity`, but then the counter of line 71 wraps to 0 and line 50 divides by
zero: `min_size` is not returned. -/
theorem find_best_key_size_short_wraps :
    ([1, 2, 3] : Str).length < 2 * 18446744073709551615
    ∧ average_normalized_distance [1, 2, 3] 18446744073709551615 = some Dbl.pinf
    ∧ find_best_key_size [1, 2, 3] 18446744073709551615 18446744073709551615 = none
    ∧ find_best_key_size [1, 2, 3] 18446744073709551615 18446744073709551615
        ≠ some 18446744073709551615 := by
  decide!

/-! ## hamming_distance: the failure value -/

/-- C15, amended: for byte sequences of fewer than `2^28` bytes
(`8 * len a < 2^31`), `hamming_distance a b` is the failure value `-1` if and
only if the lengths differ, and for equal lengths it is a count between 0 and
`8 * len a`, so the failure value is never a valid distance.  Whatever the
sizes, different lengths give `-1`. -/
theorem hamming_distance_failure (a b : Str) :
    (a.length ≠ b.length → hamming_distance a b = -1)
      ∧ (8 * a.length < 2 ^ 31 →
          (hamming_distance a b = -1 ↔ a.length ≠ b.length)
            ∧ (a.length = b.length →
                0 ≤ hamming_distance a b ∧ hamming_distance a b ≤ 8 * (a.length : Int))) := by
  have hdiff : a.length ≠ b.length → hamming_distance a b = -1 := by
    intro h
    unfold hamming_distance
    rw [if_pos h]
  refine ⟨hdiff, fun hfit => ⟨⟨?_, hdiff⟩, ?_⟩⟩
  · intro h hlen
    have := hamming_distance_nonneg a b hlen hfit
    omega
  · intro h
    exact ⟨hamming_distance_nonneg a b h hfit, hamming_distance_le a b h hfit⟩

theorem hamming_distance_failure_witness :
    0 ≤ hamming_distance [1, 2, 250] [7, 0, 3]
      ∧ hamming_distance [1, 2, 250] [7, 0, 3] ≤ 8 * (([1, 2, 250] : Str).length : Int) :=
  ((hamming_distance_failure [1, 2, 250] [7, 0, 3]).2 (by decide)).2 (by decide)

/-- C15 as stated fails: `2^29 - 1` bytes `0x00` followed by `0x00`, and
`2^29 - 1` bytes `0xFF` followed by `0x7F`, have equal lengths and differ in
`8 * (2^29 - 1) + 7 = 2^32 - 1` bits; converted to `int` the count is `-1`, the
failure value. -/
theorem hamming_distance_equal_lengths_failure :
    (List.replicate (2 ^ 29 - 1) (0 : Byte) ++ [0]).length
        = (List.replicate (2 ^ 29 - 1) (255 : Byte) ++ [127]).length
      ∧ hamming_distance (List.replicate (2 ^ 29 - 1) 0 ++ [0])
          (List.replicate (2 ^ 29 - 1) 255 ++ [127]) = -1 := by
  constructor
  · rw [List.length_append, List.length_append, List.length_replicate, List.length_replicate]
    rfl
  · rw [hamming_distance_replicate]
    have h : bitset8_count ((0 : Byte).val ^^^ (127 : Byte).val) = 7 := by decide
    rw [h]
    norm_num [toInt32]

/-! ## decrypt with an empty key -/

theorem decrypt_nil (K : Str) : decrypt [] K = some [] := rfl

theorem decrypt_cons_empty_key (x : Byte) (xs : Str) : decrypt (x :: xs) [] = none := by
  unfold decrypt
  rw [List.length_cons, List.range_succ_eq_map, List.foldlM_cons]
  rfl

/-- C16, amended: `decrypt` has no check of the key and no failure report.
With an empty key it returns the empty byte sequence for the empty ciphertext
(the loop body is never run); for a non-empty ciphertext it reaches
`i % key.size()` with `key.size() = 0`, which is undefined (`none` here), so a
non-empty key is a precondition there. -/
theorem decrypt_empty_key :
    decrypt [] [] = some [] ∧ ∀ c : Str, c ≠ [] → decrypt c [] = none := by
  refine ⟨rfl, ?_⟩
  intro c hc
  cases c with
  | nil => exact absurd rfl hc
  | cons x xs => exact decrypt_cons_empty_key x xs

theorem decrypt_empty_key_witness : decrypt [72, 105] [] = none :=
  decrypt_empty_key.2 [72, 105] (by decide)

/-- C16 as stated fails: for the empty ciphertext and the empty key `decrypt`
reports no failure, it returns the empty byte sequence. -/
theorem decrypt_empty_key_no_failure : decrypt [] [] = some [] := by
  decide

/-! ## base64_decode: the end of the alphabet prefix -/

theorem find_isSome_iff (c : Byte) :
    (find base64_chars c).isSome = is_base64_alphabet c := by
  revert c
  decide!

theorem base64_loop_takeWhile (s out : Str) (val : Nat) (valb : Int) :
    base64_loop s out val valb = base64_loop (s.takeWhile is_base64_alphabet) out val valb := by
  induction s generalizing out val valb with
  | nil => rfl
  | cons c rest ih =>
    have hc := find_isSome_iff c
    cases hf : find base64_chars c with
    | none =>
      rw [hf] at hc
      have hc2 : is_base64_alphabet c = false := by simpa using hc.symm
      rw [List.takeWhile_cons, hc2]
      simp [base64_loop, hf]
    | some index =>
      rw [hf] at hc
      have hc2 : is_base64_alphabet c = true := by simpa using hc.symm
      rw [List.takeWhile_cons, hc2]
      simp only [base64_loop, hf, if_true]
      split
      · exact ih _ _ _
      · exact ih _ _ _

theorem takeWhile_append_stop (p t : Str) (c : Byte)
    (hp : ∀ x ∈ p, is_base64_alphabet x = true) (hc : is_base64_alphabet c = false) :
    (p ++ c :: t).takeWhile is_base64_alphabet = p := by
  induction p with
  | nil => simp [List.takeWhile_cons, hc]
  | cons x xs ih =>
    rw [List.cons_append, List.takeWhile_cons, hp x (by simp)]
    simp only [if_true]
    rw [ih (fun y hy => hp y (List.mem_cons_of_mem _ hy))]

/-- C17: for every input `s`, `base64_decode s` is the decoding of the longest
prefix of `s` made of characters of the RFC 4648 alphabet (`A-Z`, `a-z`,
`0-9`, `+`, `/`): decoding stops at the first other character (padding `=`
and newlines included) and what follows it has no influence on the output. -/
theorem base64_decode_prefix :
    (∀ s : Str, base64_decode s = base64_decode (s.takeWhile is_base64_alphabet))
      ∧ (∀ (p t : Str) (c : Byte), (∀ x ∈ p, is_base64_alphabet x = true) →
          is_base64_alphabet c = false → base64_decode (p ++ c :: t) = base64_decode p) := by
  refine ⟨fun s => base64_loop_takeWhile s [] 0 (-8), ?_⟩
  intro p t c hp hc
  have h := base64_loop_takeWhile (p ++ c :: t) [] 0 (-8)
  rw [takeWhile_append_stop p t c hp hc] at h
  exact h

set_option maxRecDepth 8000 in
theorem base64_decode_prefix_witness :
    base64_decode ([83, 71, 86, 115] ++ 61 :: [10, 83, 71]) = base64_decode [83, 71, 86, 115] :=
  base64_decode_prefix.2 [83, 71, 86, 115] [10, 83, 71] 61 (by decide) (by decide)

/-! ## single_byte_xor: what is selected -/

theorem text_byte_iff (r : Byte) :
    (isprint (promote r) || isspace (promote r)) = is_text_byte r.val := by
  revert r
  decide!

theorem score_loop_eq_countP (l : Str) (init : ℚ) :
    l.foldl
        (fun score c => if isprint (promote c) || isspace (promote c) then score + 1 else score)
        init
      = init + (l.countP (fun c => is_text_byte c.val) : ℚ) := by
  induction l generalizing init with
  | nil => simp
  | cons x xs ih =>
    rw [List.foldl_cons, ih, List.countP_cons, text_byte_iff]
    by_cases h : is_text_byte x.val = true
    · simp only [h, if_true]
      push_cast
      ring
    · simp only [h, if_false]
      push_cast
      ring

/-- The score that `single_byte_xor` gives to a candidate key is the number of
printable or whitespace bytes of the column XOR-ed with the key. -/
theorem printable_score_eq_count (block : Str) (key : Nat) (hkey : key < 256) :
    printable_score (xor_decrypted block key) = (printable_count block key : ℚ) := by
  unfold printable_score printable_count
  rw [score_loop_eq_countP, zero_add, xor_decrypted_eq_map, List.countP_map]
  congr 2
  funext c
  simp only [Function.comp, toChar_promote_xor_key c key hkey]

theorem printable_count_le (block : Str) (key : Nat) : printable_count block key ≤ block.length :=
  List.countP_le_length _

theorem lt_DBL_MAX (n : Nat) (h : n < 2 ^ 64) : (n : ℚ) < DBL_MAX := by
  have h1 : (n : ℚ) < (2 : ℚ) ^ 64 := by exact_mod_cast h
  have h2 : (2 : ℚ) ^ 64 ≤ DBL_MAX := by
    unfold DBL_MAX
    norm_num
  linarith

theorem Dbl.lt_fin_fin (a b : ℚ) : Dbl.lt (Dbl.fin a) (Dbl.fin b) = decide (a < b) := rfl

/-- The loop of lines 108-125 run for the keys `0 .. m`: the state holds the
least key of least score, provided key 0 scores below the initial
`best_score`. -/
theorem best_key_loop (f : Nat → ℚ) (M : ℚ) (h0 : f 0 < M) (m : Nat) :
    ∃ k, k ≤ m
      ∧ (List.range (m + 1)).foldl
          (fun (best : Byte × Dbl) key =>
            if Dbl.lt (Dbl.fin (f key)) best.2 then (toChar key, Dbl.fin (f key)) else best)
          ((0 : Byte), Dbl.fin M)
        = (toChar k, Dbl.fin (f k))
      ∧ (∀ j, j ≤ m → f k ≤ f j) ∧ (∀ j, j < k → f k < f j) := by
  induction m with
  | zero =>
    refine ⟨0, le_refl _, ?_, ?_, ?_⟩
    · simp [List.range_succ, Dbl.lt_fin_fin, h0]
    · intro j hj
      have : j = 0 := by omega
      subst this
      exact le_refl _
    · intro j hj
      omega
  | succ m ih =>
    obtain ⟨k, hk, hfold, hmin, hfirst⟩ := ih
    rw [List.range_succ, List.foldl_append, hfold]
    simp only [List.foldl_cons, List.foldl_nil, Dbl.lt_fin_fin]
    by_cases hlt : f (m + 1) < f k
    · refine ⟨m + 1, le_refl _, by simp [hlt], ?_, ?_⟩
      · intro j hj
        rcases Nat.eq_or_lt_of_le hj with h | h
        · subst h; exact le_refl _
        · exact le_trans (le_of_lt hlt) (hmin j (by omega))
      · intro j hj
        exact lt_of_lt_of_le hlt (hmin j (by omega))
    · refine ⟨k, by omega, by simp [hlt], ?_, hfirst⟩
      intro j hj
      rcases Nat.eq_or_lt_of_le hj with h | h
      · subst h; exact not_lt.mp hlt
      · exact hmin j (by omega)

theorem single_byte_xor_eq (block : Str) :
    single_byte_xor block
      = (List.range 256).foldl
          (fun (best : Byte × Dbl) key =>
            if Dbl.lt (Dbl.fin (printable_score (xor_decrypted block key))) best.2
            then (toChar key, Dbl.fin (printable_score (xor_decrypted block key))) else best)
          ((0 : Byte), Dbl.fin DBL_MAX) := rfl

/-- What `single_byte_xor` returns for a column of fewer than `2^64` bytes. -/
theorem single_byte_xor_core (block : Str) (hlen : block.length < 2 ^ 64) :
    ∃ k, k < 256
      ∧ single_byte_xor block = (toChar k, Dbl.fin (printable_count block k : ℚ))
      ∧ (∀ j, j < 256 → printable_count block k ≤ printable_count block j)
      ∧ (∀ j, j < k → printable_count block k < printable_count block j) := by
  have h0 : printable_score (xor_decrypted block 0) < DBL_MAX := by
    rw [printable_score_eq_count block 0 (by decide)]
    exact lt_DBL_MAX _ (lt_of_le_of_lt (printable_count_le block 0) hlen)
  obtain ⟨k, hk, hfold, hmin, hfirst⟩ :=
    best_key_loop (fun key => printable_score (xor_decrypted block key)) DBL_MAX h0 255
  refine ⟨k, by omega, ?_, ?_, ?_⟩
  · rw [single_byte_xor_eq, hfold, printable_score_eq_count block k (by omega)]
  · intro j hj
    have := hmin j (by omega)
    simp only at this
    rw [printable_score_eq_count block k (by omega), printable_score_eq_count block j hj] at this
    exact_mod_cast this
  · intro j hj
    have := hfirst j hj
    simp only at this
    rw [printable_score_eq_count block k (by omega),
      printable_score_eq_count block j (by omega)] at this
    exact_mod_cast this

/-- C18: for every column (a `std::string`, so of fewer than `2^64` bytes)
`single_byte_xor` returns the lowest key byte among the 256 candidates that
minimise the number of printable-ASCII-or-whitespace bytes of
`column XOR key byte`, together with that minimum count as the score; for the
empty column it returns key byte 0 with score 0. -/
theorem single_byte_xor_spec :
    (∀ block : Str, block.length < 2 ^ 64 →
      ∃ k, k < 256
        ∧ single_byte_xor block = (toChar k, Dbl.fin (printable_count block k : ℚ))
        ∧ (∀ j, j < 256 → printable_count block k ≤ printable_count block j)
        ∧ (∀ j, j < k → printable_count block k < printable_count block j))
    ∧ single_byte_xor [] = (0, Dbl.fin 0) := by
  refine ⟨single_byte_xor_core, ?_⟩
  obtain ⟨k, hk, heq, hmin, hfirst⟩ := single_byte_xor_core [] (by simp)
  have hk0 : k = 0 := by
    by_contra hne
    have := hfirst 0 (by omega)
    simp [printable_count] at this
  subst hk0
  rw [heq]
  simp [printable_count, toChar]

theorem single_byte_xor_spec_witness :
    ∃ k, k < 256
      ∧ single_byte_xor [72, 101, 108, 108, 111]
          = (toChar k, Dbl.fin (printable_count [72, 101, 108, 108, 111] k : ℚ))
      ∧ (∀ j, j < 256 →
          printable_count [72, 101, 108, 108, 111] k ≤ printable_count [72, 101, 108, 108, 111] j)
      ∧ (∀ j, j < k →
          printable_count [72, 101, 108, 108, 111] k < printable_count [72, 101, 108, 108, 111] j) :=
  single_byte_xor_spec.1 [72, 101, 108, 108, 111] (by decide)

/-! ## Columns of a ciphertext and of its plaintext -/

/-- The columns that `transpose_blocks` makes of the blocks of `c`. -/
theorem columns_of (c : Str) (k : Nat) (hk : 1 ≤ k) (hfit : c.length + k ≤ 2 ^ 64) :
    ∃ blocks cols, break_into_blocks c k = some blocks
      ∧ transpose_blocks blocks = some cols
      ∧ cols.length = min k c.length
      ∧ ∀ j, j < min k c.length → ∀ t, (cols.getD j [])[t]? = (c)[j + t * k]? := by
  refine ⟨_, _, break_into_blocks_eq c k hk hfit, transpose_chunks_eq c k hk, by simp, ?_⟩
  intro j hj t
  rw [getD_columns c k _ j hj]
  exact getElem?_column_blocks c k j t hk

theorem getElem?_decrypt (P K C : Str) (hK : K ≠ []) (h : decrypt P K = some C) (i : Nat) :
    C[i]? = (P[i]?).map
      (fun x => toChar (promote x ^^^ promote (K.getD (i % K.length) 0))) := by
  rw [decrypt_eq_map P K hK] at h
  have h2 := Option.some.inj h
  subst h2
  rw [List.getElem?_map]
  by_cases hi : i < P.length
  · rw [List.getElem?_range hi, List.getElem?_eq_getElem hi]
    simp [List.getD_eq_getElem?_getD, List.getElem?_eq_getElem hi]
  · rw [List.getElem?_eq_none (by simpa using hi), List.getElem?_eq_none (by omega)]
    rfl

theorem toChar_promote_eq_xor (x b : Byte) :
    toChar (promote x ^^^ promote b) = toChar (x.val ^^^ b.val) := by
  apply Fin.ext
  rw [toChar_promote_xor, toChar_xor_val]

/-- C19: for every plaintext `P` and non-empty key `K` of length `k` (two
strings held in memory together, so that `len P + len K ≤ 2^64` and the sum of
line 85 does not wrap), with `C = decrypt P K`: the ciphertext and the plaintext have the same number of
columns for key size `k`, and column `j` of the ciphertext is column `j` of the
plaintext with every byte XOR-ed with the single byte `K[j]`. -/
theorem columns_single_byte_xor (P K : Str) (hK : K ≠ [])
    (hfit : P.length + K.length ≤ 2 ^ 64) :
    ∃ C blocksC colsC blocksP colsP,
      decrypt P K = some C
      ∧ break_into_blocks C K.length = some blocksC ∧ transpose_blocks blocksC = some colsC
      ∧ break_into_blocks P K.length = some blocksP ∧ transpose_blocks blocksP = some colsP
      ∧ colsC.length = colsP.length
      ∧ ∀ j, j < colsC.length →
          colsC.getD j [] = xor_with (colsP.getD j []) (K.getD j 0) := by
  have hk : 1 ≤ K.length := by
    cases K with
    | nil => exact absurd rfl hK
    | cons x xs => simp
  have hC := decrypt_eq_map P K hK
  obtain ⟨hlen, _⟩ := decrypt_getD P K _ hK hC
  generalize (List.range P.length).map
    (fun i => toChar (promote (P.getD i 0) ^^^ promote (K.getD (i % K.length) 0))) = C
    at hC hlen
  obtain ⟨blocksC, colsC, hbC, htC, hlC, hgC⟩ := columns_of C K.length hk (by omega)
  obtain ⟨blocksP, colsP, hbP, htP, hlP, hgP⟩ := columns_of P K.length hk hfit
  refine ⟨C, blocksC, colsC, blocksP, colsP, hC, hbC, htC, hbP, htP, by omega, ?_⟩
  intro j hj
  have hjC : j < min K.length C.length := by omega
  have hjP : j < min K.length P.length := by omega
  apply List.ext_getElem?
  intro t
  rw [hgC j hjC t, getElem?_decrypt P K C hK hC, xor_with, List.getElem?_map, hgP j hjP t]
  have hmod : (j + t * K.length) % K.length = j := by
    rw [Nat.add_mul_mod_self_right, Nat.mod_eq_of_lt (by omega)]
  rw [hmod]
  cases (P)[j + t * K.length]? with
  | none => rfl
  | some x => simp [toChar_promote_eq_xor]

theorem columns_single_byte_xor_witness :
    ∃ C blocksC colsC blocksP colsP,
      decrypt [72, 105, 32, 116, 104, 101, 114, 101] [73, 67, 69] = some C
      ∧ break_into_blocks C ([73, 67, 69] : Str).length = some blocksC
      ∧ transpose_blocks blocksC = some colsC
      ∧ break_into_blocks [72, 105, 32, 116, 104, 101, 114, 101] ([73, 67, 69] : Str).length
          = some blocksP
      ∧ transpose_blocks blocksP = some colsP
      ∧ colsC.length = colsP.length
      ∧ ∀ j, j < colsC.length →
          colsC.getD j [] = xor_with (colsP.getD j []) (([73, 67, 69] : Str).getD j 0) :=
  columns_single_byte_xor [72, 105, 32, 116, 104, 101, 114, 101] [73, 67, 69] (by decide)
    (by decide)

/-! ## base64_decode: the bytes decoded -/

theorem bits_fold (l : List Bool) (init : Nat) :
    l.foldl (fun acc b => 2 * acc + (if b then 1 else 0)) init
      = init * 2 ^ l.length + bits_value l := by
  unfold bits_value
  induction l generalizing init with
  | nil => simp
  | cons x xs ih =>
    rw [List.foldl_cons, List.foldl_cons, ih, ih (2 * 0 + _), List.length_cons, pow_succ]
    ring

theorem bits_value_append (a b : List Bool) :
    bits_value (a ++ b) = bits_value a * 2 ^ b.length + bits_value b := by
  conv_lhs => unfold bits_value
  rw [List.foldl_append, bits_fold]
  rfl

theorem bits_value_lt (l : List Bool) : bits_value l < 2 ^ l.length := by
  induction l using List.reverseRecOn with
  | nil => simp [bits_value]
  | append_singleton xs x ih =>
    rw [bits_value_append, List.length_append, List.length_singleton, pow_succ]
    have : bits_value [x] ≤ 1 := by cases x <;> simp [bits_value]
    omega

theorem bits_value_bits6 (v : Nat) (h : v < 64) : bits_value (bits6 v) = v := by
  revert v
  decide

theorem find_eq_index (c : Byte) (h : is_base64_alphabet c = true) :
    find base64_chars c = some (rfc4648_index c) ∧ rfc4648_index c < 64 := by
  revert c
  decide!

theorem bit_string_length (s : Str) : (bit_string s).length = 6 * s.length := by
  induction s with
  | nil => rfl
  | cons c rest ih =>
    simp only [bit_string, List.map_cons, List.flatten_cons, List.length_append,
      List.length_cons] at ih ⊢
    rw [ih]
    simp [bits6]
    omega

theorem bit_string_append (a b : Str) : bit_string (a ++ b) = bit_string a ++ bit_string b := by
  simp [bit_string]

theorem bit_string_singleton (c : Byte) : bit_string [c] = bits6 (rfc4648_index c) := by
  simp [bit_string]

/-- Eight bits of a bit string, as a number: a shift and a mask of the whole. -/
theorem bits_value_window (bs : List Bool) (a : Nat) (h : a + 8 ≤ bs.length) :
    bits_value ((bs.drop a).take 8)
      = (bits_value bs / 2 ^ (bs.length - a - 8)) % 256 := by
  have hsplit : bs = bs.take a ++ ((bs.drop a).take 8 ++ (bs.drop a).drop 8) := by
    rw [List.take_append_drop, List.take_append_drop]
  have hlen8 : ((bs.drop a).take 8).length = 8 := by
    rw [List.length_take, List.length_drop]
    omega
  have hlenr : ((bs.drop a).drop 8).length = bs.length - a - 8 := by
    rw [List.length_drop, List.length_drop]
  have hB := bits_value_lt ((bs.drop a).take 8)
  have hC := bits_value_lt ((bs.drop a).drop 8)
  rw [hlen8] at hB
  rw [hlenr] at hC
  have hval : bits_value bs
      = (bits_value (bs.take a) * 256 + bits_value ((bs.drop a).take 8))
          * 2 ^ (bs.length - a - 8) + bits_value ((bs.drop a).drop 8) := by
    conv_lhs => rw [hsplit]
    rw [bits_value_append, bits_value_append, List.length_append, hlen8, hlenr, pow_add]
    ring
  have hB2 : bits_value ((bs.drop a).take 8) < 256 := hB
  rw [hval, Nat.add_comm, Nat.add_mul_div_right _ _ (Nat.two_pow_pos _),
    Nat.div_eq_of_lt hC, Nat.zero_add, Nat.add_comm, Nat.add_mul_mod_self_right,
    Nat.mod_eq_of_lt hB2]

theorem window_append (bs cs : List Bool) (a : Nat) (h : a + 8 ≤ bs.length) :
    ((bs ++ cs).drop a).take 8 = (bs.drop a).take 8 := by
  rw [List.drop_append_of_le_length (by omega), List.take_append_of_le_length]
  rw [List.length_drop]
  omega

/-- The byte that line 42 takes from the wrapped accumulator is the byte of the
unwrapped value: the bits read lie below bit 32. -/
theorem extract_byte (V index s : Nat) (hs : s = 0 ∨ s = 2 ∨ s = 4) :
    asr32 ((V % 2 ^ 32 * 64 + index) % 2 ^ 32) s % 256 = (V * 64 + index) / 2 ^ s % 256 := by
  unfold asr32
  rcases hs with h | h | h <;> subst h <;> norm_num <;> (try split) <;> omega

theorem bit_string_snoc_value (pre : Str) (c : Byte) (hc : rfc4648_index c < 64) :
    bits_value (bit_string (pre ++ [c]))
      = bits_value (bit_string pre) * 64 + rfc4648_index c := by
  rw [bit_string_append, bit_string_singleton, bits_value_append, bits_value_bits6 _ hc]
  rfl

/-- The bytes already decoded are not changed by a further character. -/
theorem decoded_prefix_stable (pre : Str) (c : Byte) (J : Nat) (hJ : 8 * J ≤ 6 * pre.length) :
    (List.range J).map
        (fun j => toChar (bits_value (((bit_string (pre ++ [c])).drop (8 * j)).take 8)))
      = (List.range J).map
        (fun j => toChar (bits_value (((bit_string pre).drop (8 * j)).take 8))) := by
  apply List.map_congr_left
  intro j hj
  have hj2 : j < J := List.mem_range.mp hj
  rw [bit_string_append, window_append _ _ _ (by rw [bit_string_length]; omega)]

/-- The loop of lines 37-45 on alphabet characters, from the state reached
after the characters `pre`. -/
theorem base64_loop_spec (rest pre out : Str) (val : Nat) (valb : Int)
    (hrest : ∀ c ∈ rest, is_base64_alphabet c = true)
    (hout : out = rfc4648_decode pre)
    (hval : val = bits_value (bit_string pre) % 2 ^ 32)
    (hvalb : valb = 6 * (pre.length : Int) - 8 * (out.length : Int) - 8) :
    base64_loop rest out val valb = rfc4648_decode (pre ++ rest) := by
  induction rest generalizing pre out val valb with
  | nil => rw [List.append_nil, hout]; rfl
  | cons c rest ih =>
    obtain ⟨hfind, hidx⟩ := find_eq_index c (hrest c (by simp))
    have hrest2 : ∀ x ∈ rest, is_base64_alphabet x = true :=
      fun x hx => hrest x (List.mem_cons_of_mem _ hx)
    have hJ : out.length = 6 * pre.length / 8 := by
      rw [hout, rfc4648_decode, List.length_map, List.length_range]
    have happ : pre ++ c :: rest = (pre ++ [c]) ++ rest := by simp
    have hval2 : (val * 64 + rfc4648_index c) % 2 ^ 32
        = bits_value (bit_string (pre ++ [c])) % 2 ^ 32 := by
      rw [bit_string_snoc_value pre c hidx, hval]
      norm_num
      omega
    rw [happ]
    simp only [base64_loop, hfind]
    split
    · rename_i hpos
      have hlenJ : 6 * (pre.length + 1) / 8 = out.length + 1 := by omega
      have hs : (valb + 6).toNat = 0 ∨ (valb + 6).toNat = 2 ∨ (valb + 6).toNat = 4 := by omega
      apply ih (pre ++ [c]) _ _ _ hrest2
      · rw [rfc4648_decode, List.length_append, List.length_singleton, hlenJ, List.range_succ,
          List.map_append, decoded_prefix_stable pre c out.length (by omega)]
        congr 1
        · rw [hout, rfc4648_decode, List.length_map, List.length_range]
        · simp only [List.map_cons, List.map_nil]
          congr 1
          apply Fin.ext
          simp only [toChar]
          rw [Nat.mod_mod, hval, extract_byte _ _ _ hs,
            bits_value_window _ _ (by rw [bit_string_length, List.length_append,
              List.length_singleton]; omega),
            bit_string_length, List.length_append, List.length_singleton,
            bit_string_snoc_value pre c hidx, Nat.mod_mod]
          congr 3
          omega
      · exact hval2
      · rw [List.length_append, List.length_singleton, List.length_append,
          List.length_singleton]
        push_cast
        omega
    · rename_i hneg
      have hlenJ : 6 * (pre.length + 1) / 8 = out.length := by omega
      apply ih (pre ++ [c]) _ _ _ hrest2
      · rw [rfc4648_decode, List.length_append, List.length_singleton, hlenJ,
          decoded_prefix_stable pre c out.length (by omega)]
        conv_lhs => rw [hout]
        rw [rfc4648_decode, hJ]
      · exact hval2
      · rw [List.length_append, List.length_singleton]
        push_cast
        omega

/-- C20: for every string `s` of `n` characters of the base64 alphabet (of any
length: the 32-bit accumulator `val` is never masked and wraps modulo `2^32`),
`base64_decode s` has exactly `floor (6 n / 8)` bytes and its byte `j` is bits
`8 j .. 8 j + 7` of the bit string made of the 6-bit RFC 4648 values of the
characters, that is, the RFC 4648 decoding of `s`. -/
theorem base64_decode_spec (s : Str) (hs : ∀ c ∈ s, is_base64_alphabet c = true) :
    base64_decode s = rfc4648_decode s
      ∧ (base64_decode s).length = 6 * s.length / 8
      ∧ ∀ j, j < 6 * s.length / 8 →
          ((base64_decode s).getD j 0).val
            = bits_value (((bit_string s).drop (8 * j)).take 8) := by
  have h : base64_decode s = rfc4648_decode s := by
    have := base64_loop_spec s [] [] 0 (-8) hs rfl rfl (by simp)
    rw [List.nil_append] at this
    exact this
  refine ⟨h, ?_, ?_⟩
  · rw [h, rfc4648_decode, List.length_map, List.length_range]
  · intro j hj
    rw [h, rfc4648_decode, getD_map_range _ _ _ _ hj]
    simp only [toChar]
    apply Nat.mod_eq_of_lt
    have hlen : (((bit_string s).drop (8 * j)).take 8).length ≤ 8 := by
      rw [List.length_take]
      omega
    calc bits_value (((bit_string s).drop (8 * j)).take 8)
        < 2 ^ (((bit_string s).drop (8 * j)).take 8).length := bits_value_lt _
      _ ≤ 2 ^ 8 := Nat.pow_le_pow_right (by decide) hlen

set_option maxRecDepth 8000 in
theorem base64_decode_spec_witness :
    base64_decode [83, 71, 86, 115, 98, 71, 56, 103, 100, 50, 57, 121, 98, 71, 81, 104]
        = rfc4648_decode [83, 71, 86, 115, 98, 71, 56, 103, 100, 50, 57, 121, 98, 71, 81, 104]
      ∧ (base64_decode
          [83, 71, 86, 115, 98, 71, 56, 103, 100, 50, 57, 121, 98, 71, 81, 104]).length
        = 6 * ([83, 71, 86, 115, 98, 71, 56, 103, 100, 50, 57, 121, 98, 71, 81, 104] : Str).length
            / 8
      ∧ ∀ j, j < 6
            * ([83, 71, 86, 115, 98, 71, 56, 103, 100, 50, 57, 121, 98, 71, 81, 104] : Str).length
            / 8 →
          ((base64_decode
              [83, 71, 86, 115, 98, 71, 56, 103, 100, 50, 57, 121, 98, 71, 81, 104]).getD j 0).val
            = bits_value (((bit_string
                [83, 71, 86, 115, 98, 71, 56, 103, 100, 50, 57, 121, 98, 71, 81, 104]).drop
                  (8 * j)).take 8) :=
  base64_decode_spec [83, 71, 86, 115, 98, 71, 56, 103, 100, 50, 57, 121, 98, 71, 81, 104]
    (by decide)

/-! ## The rounding model: finite results -/

theorem ilog2Aux_spec (fuel m : Nat) (h1 : 1 ≤ m) (hf : m ≤ fuel) :
    2 ^ ilog2Aux fuel m ≤ m ∧ m < 2 ^ (ilog2Aux fuel m + 1) := by
  induction fuel generalizing m with
  | zero => omega
  | succ fuel ih =>
    unfold ilog2Aux
    by_cases h : m < 2
    · rw [if_pos h]
      simp
      omega
    · rw [if_neg h]
      obtain ⟨hlo, hhi⟩ := ih (m / 2) (by omega) (by omega)
      constructor
      · rw [pow_succ]
        omega
      · rw [pow_succ]
        omega

theorem ilog2_spec (n : Nat) (h : 1 ≤ n) : 2 ^ ilog2 n ≤ n ∧ n < 2 ^ (ilog2 n + 1) :=
  ilog2Aux_spec n n h (le_refl n)

theorem roundNearestEven_le (N D : Nat) : roundNearestEven N D ≤ N / D + 1 := by
  unfold roundNearestEven
  split
  · omega
  · split
    · omega
    · split <;> omega

/-- The binade found by `ulpExp` does not lie above the fraction. -/
theorem floorLog_le (p d : Nat) (hp : 1 ≤ p) (hd : 1 ≤ d) (F : Int)
    (hF : F = if scaleDen d ((ilog2 p : Int) - (ilog2 d : Int))
                  ≤ scaleNum p ((ilog2 p : Int) - (ilog2 d : Int))
              then (ilog2 p : Int) - (ilog2 d : Int)
              else (ilog2 p : Int) - (ilog2 d : Int) - 1)
    (h0 : 0 ≤ F) : d * 2 ^ F.toNat ≤ p := by
  obtain ⟨hplo, _⟩ := ilog2_spec p hp
  obtain ⟨_, hdhi⟩ := ilog2_spec d hd
  split at hF
  · rename_i hcond
    subst hF
    unfold scaleDen scaleNum at hcond
    rw [if_neg (by omega), if_neg (by omega)] at hcond
    exact hcond
  · subst hF
    have hle : ilog2 d + 1 ≤ ilog2 p := by omega
    have ht : ((ilog2 p : Int) - (ilog2 d : Int) - 1).toNat = ilog2 p - (ilog2 d + 1) := by omega
    rw [ht]
    have hpow : 2 ^ (ilog2 d + 1) * 2 ^ (ilog2 p - (ilog2 d + 1)) = 2 ^ ilog2 p := by
      rw [← pow_add]
      congr 1
      omega
    calc d * 2 ^ (ilog2 p - (ilog2 d + 1))
        ≤ 2 ^ (ilog2 d + 1) * 2 ^ (ilog2 p - (ilog2 d + 1)) :=
          Nat.mul_le_mul_right _ (le_of_lt hdhi)
      _ = 2 ^ ilog2 p := hpow
      _ ≤ p := hplo

/-- Rounding a positive fraction moves it by at most one unit in the last
place, which is at most the fraction itself or 1. -/
theorem roundPos_bound (p d : Nat) (hp : 1 ≤ p) (hd : 1 ≤ d)
    (hB : 2 * ((p : ℚ) / (d : ℚ)) + 1 ≤ DBL_MAX) :
    ∃ v, roundPos p d = Dbl.fin v ∧ 0 ≤ v ∧ v ≤ 2 * ((p : ℚ) / (d : ℚ)) + 1 := by
  have hdq : (0 : ℚ) < (d : ℚ) := by exact_mod_cast hd
  have hpq : (0 : ℚ) ≤ (p : ℚ) := by exact_mod_cast Nat.zero_le p
  have hq0 : (0 : ℚ) ≤ (p : ℚ) / (d : ℚ) := div_nonneg hpq (le_of_lt hdq)
  unfold roundPos
  simp only
  generalize he : ulpExp p d = e
  have hm := roundNearestEven_le (scaleNum p e) (scaleDen d e)
  generalize roundNearestEven (scaleNum p e) (scaleDen d e) = m at hm
  have hv : ((m * 2 ^ e.toNat : Nat) : ℚ) / ((2 ^ (-e).toNat : Nat) : ℚ)
      ≤ 2 * ((p : ℚ) / (d : ℚ)) + 1 := by
    by_cases hneg : e < 0
    · have e1 : e.toNat = 0 := by omega
      unfold scaleNum scaleDen at hm
      rw [if_pos hneg, if_pos hneg] at hm
      rw [e1, pow_zero, mul_one]
      generalize (-e).toNat = t at hm ⊢
      have h2 : (0 : ℚ) < ((2 ^ t : Nat) : ℚ) := by positivity
      have hmq : (m : ℚ) ≤ ((p * 2 ^ t : Nat) : ℚ) / (d : ℚ) + 1 := by
        calc (m : ℚ) ≤ ((p * 2 ^ t / d + 1 : Nat) : ℚ) := by exact_mod_cast hm
          _ = ((p * 2 ^ t / d : Nat) : ℚ) + 1 := by push_cast; ring
          _ ≤ ((p * 2 ^ t : Nat) : ℚ) / (d : ℚ) + 1 := by
              have := @Nat.cast_div_le ℚ _ (p * 2 ^ t) d
              linarith
      rw [div_le_iff₀ h2]
      have h3 : (1 : ℚ) ≤ ((2 ^ t : Nat) : ℚ) := by
        have : 1 ≤ 2 ^ t := Nat.one_le_two_pow
        exact_mod_cast this
      have h4 : ((p * 2 ^ t : Nat) : ℚ) / (d : ℚ) = (p : ℚ) / (d : ℚ) * ((2 ^ t : Nat) : ℚ) := by
        push_cast
        ring
      rw [h4] at hmq
      nlinarith
    · have e1 : (-e).toNat = 0 := by omega
      unfold scaleNum scaleDen at hm
      rw [if_neg hneg, if_neg hneg] at hm
      rw [e1, pow_zero, Nat.cast_one, div_one]
      have hF : d * 2 ^ e.toNat ≤ p := by
        unfold ulpExp at he
        simp only at he
        generalize hFdef : (if scaleDen d ((ilog2 p : Int) - (ilog2 d : Int))
                  ≤ scaleNum p ((ilog2 p : Int) - (ilog2 d : Int))
              then (ilog2 p : Int) - (ilog2 d : Int)
              else (ilog2 p : Int) - (ilog2 d : Int) - 1) = F at he
        have hF0 : 0 ≤ F := by omega
        have := floorLog_le p d hp hd F hFdef.symm hF0
        have hle : e.toNat ≤ F.toNat := by omega
        calc d * 2 ^ e.toNat ≤ d * 2 ^ F.toNat :=
              Nat.mul_le_mul_left _ (Nat.pow_le_pow_right (by decide) hle)
          _ ≤ p := this
      generalize e.toNat = t at hm hF ⊢
      have h2 : (0 : ℚ) < ((2 ^ t : Nat) : ℚ) := by positivity
      have hFq : (d : ℚ) * ((2 ^ t : Nat) : ℚ) ≤ (p : ℚ) := by exact_mod_cast hF
      have hpow_le : ((2 ^ t : Nat) : ℚ) ≤ (p : ℚ) / (d : ℚ) := by
        rw [le_div_iff₀ hdq]
        linarith
      have hmq : (m : ℚ) ≤ (p : ℚ) / ((d : ℚ) * ((2 ^ t : Nat) : ℚ)) + 1 := by
        calc (m : ℚ) ≤ ((p / (d * 2 ^ t) + 1 : Nat) : ℚ) := by exact_mod_cast hm
          _ = ((p / (d * 2 ^ t) : Nat) : ℚ) + 1 := by push_cast; ring
          _ ≤ (p : ℚ) / (((d * 2 ^ t : Nat)) : ℚ) + 1 := by
              have := @Nat.cast_div_le ℚ _ p (d * 2 ^ t)
              linarith
          _ = (p : ℚ) / ((d : ℚ) * ((2 ^ t : Nat) : ℚ)) + 1 := by push_cast; ring
      have h5 : (p : ℚ) / ((d : ℚ) * ((2 ^ t : Nat) : ℚ)) * ((2 ^ t : Nat) : ℚ)
          = (p : ℚ) / (d : ℚ) := by
        field_simp
        ring
      have h6 : ((m * 2 ^ t : Nat) : ℚ) = (m : ℚ) * ((2 ^ t : Nat) : ℚ) := by push_cast; ring
      rw [h6]
      nlinarith
  have hv0 : (0 : ℚ) ≤ ((m * 2 ^ e.toNat : Nat) : ℚ) / ((2 ^ (-e).toNat : Nat) : ℚ) := by
    positivity
  rw [if_neg (not_lt.mpr (le_trans hv hB))]
  exact ⟨_, rfl, hv0, hv⟩

theorem roundToDouble_bound (q : ℚ) (h0 : 0 ≤ q) (hB : 2 * q + 1 ≤ DBL_MAX) :
    ∃ v, roundToDouble q = Dbl.fin v ∧ 0 ≤ v ∧ v ≤ 2 * q + 1 := by
  unfold roundToDouble
  by_cases hz : q = 0
  · rw [if_pos hz]
    exact ⟨0, rfl, le_refl _, by linarith⟩
  · rw [if_neg hz]
    have hpos : 0 < q := lt_of_le_of_ne h0 (Ne.symm hz)
    rw [if_pos hpos]
    have hnum : 0 < q.num := Rat.num_pos.mpr hpos
    have hp : 1 ≤ q.num.natAbs := by omega
    have hd : 1 ≤ q.den := q.den_pos
    have hq : ((q.num.natAbs : ℚ)) / (q.den : ℚ) = q := by
      have h1 : ((q.num.natAbs : ℤ) : ℚ) = (q.num : ℚ) := by
        rw [Int.natAbs_of_nonneg (le_of_lt hnum)]
      have h2 : ((q.num.natAbs : ℕ) : ℚ) = ((q.num.natAbs : ℤ) : ℚ) := (Int.cast_natCast _).symm
      rw [h2, h1]
      exact Rat.num_div_den q
    have := roundPos_bound q.num.natAbs q.den hp hd (by rw [hq]; exact hB)
    rw [hq] at this
    exact this

/-! ## Finite scores and the key size of a long enough ciphertext -/

theorem sum_bounds (l : List Int) (B : Int) (h : ∀ x ∈ l, 0 ≤ x ∧ x ≤ B) :
    0 ≤ l.sum ∧ l.sum ≤ B * l.length := by
  induction l with
  | nil => simp
  | cons x xs ih =>
    obtain ⟨h1, h2⟩ := ih (fun y hy => h y (List.mem_cons_of_mem _ hy))
    obtain ⟨h3, h4⟩ := h x (by simp)
    rw [List.sum_cons, List.length_cons]
    push_cast
    constructor
    · omega
    · nlinarith

theorem total_hamming_bounds (c : Str) (k : Nat) (hn : 2 ≤ c.length / k)
    (hk2 : 8 * k < 2 ^ 31) :
    0 ≤ total_hamming c k
      ∧ total_hamming c k ≤ 8 * (k : Int) * ((c.length / k - 1 : Nat) : Int) := by
  unfold total_hamming
  have h := sum_bounds
    ((List.range (c.length / k - 1)).map
      (fun i => hamming_distance (chunk c k i) (chunk c k (i + 1))))
    (8 * (k : Int)) (by
      intro x hx
      rw [List.mem_map] at hx
      obtain ⟨i, hi, rfl⟩ := hx
      have hi2 : i < c.length / k - 1 := List.mem_range.mp hi
      have hfit : (i + 1 + 1) * k ≤ c.length := by
        calc (i + 1 + 1) * k ≤ (c.length / k) * k := Nat.mul_le_mul_right k (by omega)
          _ ≤ c.length := Nat.div_mul_le_self _ _
      have hfit0 : (i + 1) * k ≤ c.length := by
        have : (i + 1 + 1) * k = (i + 1) * k + k := by ring
        omega
      have l1 := chunk_length c k i hfit0
      have l2 := chunk_length c k (i + 1) hfit
      have hle := hamming_distance_le (chunk c k i) (chunk c k (i + 1)) (by rw [l1, l2])
        (by rw [l1]; exact hk2)
      rw [l1] at hle
      exact ⟨hamming_distance_nonneg _ _ (by rw [l1, l2]) (by rw [l1]; exact hk2), hle⟩)
  rw [List.length_map, List.length_range] at h
  exact h

theorem DBL_MAX_large : (2 : ℚ) ^ 80 ≤ DBL_MAX := by
  unfold DBL_MAX
  norm_num

/-- A candidate of fewer than `2^28` bytes with at least two full chunks has a
finite score. -/
theorem score_finite (c : Str) (k : Nat) (hk : 1 ≤ k) (hk8 : 8 * k < 2 ^ 31)
    (hn : 2 ≤ c.length / k) :
    ∃ v, average_normalized_distance c k = some (Dbl.fin v) := by
  have hkq : (0 : ℚ) < (k : ℚ) := by exact_mod_cast hk
  have hkq1 : (1 : ℚ) ≤ (k : ℚ) := by exact_mod_cast hk
  have hk2 : k ≤ 2 ^ 64 := by omega
  have hk2q : (k : ℚ) ≤ (2 : ℚ) ^ 64 := by exact_mod_cast hk2
  have hmq : (0 : ℚ) < ((c.length / k - 1 : Nat) : ℚ) := by
    have : 0 < c.length / k - 1 := by omega
    exact_mod_cast this
  obtain ⟨hS0, hS1⟩ := total_hamming_bounds c k hn hk8
  have hS0q : (0 : ℚ) ≤ ((total_hamming c k : Int) : ℚ) := by exact_mod_cast hS0
  have hS1q : ((total_hamming c k : Int) : ℚ)
      ≤ 8 * (k : ℚ) * ((c.length / k - 1 : Nat) : ℚ) := by exact_mod_cast hS1
  have hq1 : ((total_hamming c k : Int) : ℚ) / ((c.length / k - 1 : Nat) : ℚ) ≤ 8 * (k : ℚ) := by
    rw [div_le_iff₀ hmq]
    exact hS1q
  have hq0 : (0 : ℚ) ≤ ((total_hamming c k : Int) : ℚ) / ((c.length / k - 1 : Nat) : ℚ) :=
    div_nonneg hS0q (le_of_lt hmq)
  have hbig := DBL_MAX_large
  have h80 : (2 : ℚ) ^ 80 = 2 ^ 64 * 65536 := by norm_num
  obtain ⟨v1, hv1, hv10, hv1b⟩ := roundToDouble_bound _ hq0 (by nlinarith)
  have hq2b : v1 / (k : ℚ) ≤ 17 := by
    rw [div_le_iff₀ hkq]
    nlinarith
  have h17 : (35 : ℚ) ≤ DBL_MAX := by
    have : (35 : ℚ) ≤ 2 ^ 80 := by norm_num
    linarith
  obtain ⟨v2, hv2, _, _⟩ := roundToDouble_bound (v1 / (k : ℚ)) (div_nonneg hv10 (le_of_lt hkq))
    (by linarith)
  refine ⟨v2, ?_⟩
  rw [average_normalized_distance_eq c k hk, if_neg (by omega),
    div_fin_fin _ _ (ne_of_gt hmq), hv1, div_fin_fin _ _ (ne_of_gt hkq), hv2]

/-- With at least two chunks of the smallest size, the size returned has at
least two chunks. -/
theorem key_size_fits (c : Str) (min_size max_size : Nat) (h1 : 1 ≤ min_size)
    (h2 : min_size ≤ max_size) (hmax : max_size + 1 < 2 ^ 64) (h3 : 8 * min_size < 2 ^ 31)
    (hlen : 2 * min_size ≤ c.length) :
    ∃ k, find_best_key_size c min_size max_size = some k
      ∧ min_size ≤ k ∧ k ≤ max_size ∧ 2 * k ≤ c.length := by
  obtain ⟨k, sk, hfind, hlo, hhi, hsk, hle, _⟩ :=
    find_best_key_size_core c min_size max_size h1 h2 hmax
  refine ⟨k, hfind, hlo, hhi, ?_⟩
  have hn : 2 ≤ c.length / min_size := by
    rw [Nat.le_div_iff_mul_le (by omega)]
    omega
  obtain ⟨v, hv⟩ := score_finite c min_size h1 h3 hn
  obtain ⟨sj, hsj, hcmp⟩ := hle min_size (le_refl _) h2
  rw [hv] at hsj
  have e := Option.some.inj hsj
  subst e
  by_contra hcon
  have hdiv : c.length / k < 2 := by
    rw [Nat.div_lt_iff_lt_mul (by omega)]
    omega
  rw [average_normalized_distance_eq c k (by omega), if_pos hdiv] at hsk
  have e2 := Option.some.inj hsk
  subst e2
  simp [Dbl.le] at hcmp

/-! ## The stages after the key size -/

theorem find_repeating_key_eq_map (blocks : List Str) :
    find_repeating_key blocks = blocks.map (fun block => (single_byte_xor block).1) := by
  unfold find_repeating_key
  rw [foldl_push_eq_map]
  rfl

/-- For every key size `k ≥ 1` with `len c + k ≤ 2^64` the stages after
`find_best_key_size` run to completion: no index leaves its container and
`decrypt` meets an empty key only with an empty ciphertext. -/
theorem stages_run (c : Str) (k : Nat) (hk : 1 ≤ k) (hfit : c.length + k ≤ 2 ^ 64) :
    ∃ blocks cols out, break_into_blocks c k = some blocks
      ∧ transpose_blocks blocks = some cols
      ∧ (find_repeating_key cols).length = min k c.length
      ∧ (∀ j, j < min k c.length →
          (find_repeating_key cols).getD j 0 = (single_byte_xor (cols.getD j [])).1)
      ∧ decrypt c (find_repeating_key cols) = some out
      ∧ out.length = c.length := by
  obtain ⟨blocks, cols, hb, ht, hl, _⟩ := columns_of c k hk hfit
  have hkey : (find_repeating_key cols).length = min k c.length := by
    rw [find_repeating_key_eq_map, List.length_map, hl]
  have hbytes : ∀ j, j < min k c.length →
      (find_repeating_key cols).getD j 0 = (single_byte_xor (cols.getD j [])).1 := by
    intro j hj
    rw [find_repeating_key_eq_map, List.getD_eq_getElem?_getD, List.getElem?_map,
      List.getD_eq_getElem?_getD, List.getElem?_eq_getElem (by omega)]
    rfl
  cases c with
  | nil => exact ⟨blocks, cols, [], hb, ht, hkey, hbytes, rfl, rfl⟩
  | cons x xs =>
    have hne : find_repeating_key cols ≠ [] := by
      intro h
      rw [h] at hkey
      simp at hkey
      omega
    have hd := decrypt_eq_map (x :: xs) (find_repeating_key cols) hne
    exact ⟨blocks, cols, _, hb, ht, hkey, hbytes, hd,
      (decrypt_getD _ _ _ hne hd).1⟩

/-! ## The key and the run of `main` -/

/-- C12, amended: for every ciphertext `c` (a string held in memory, so that
`len c + 40 ≤ 2^64` and the sum of line 85 does not wrap), with
`k = find_best_key_size c` (bounds 2..40), the key
`find_repeating_key (transpose_blocks (break_into_blocks c k))` has
`min k (len c)` bytes, one solved byte per column in column order; for every
ciphertext of at least 2 bytes that length is exactly `k`, at least 1 and at
most `len c`. -/
theorem key_length_spec (c : Str) (hmem : c.length + 40 ≤ 2 ^ 64) :
    ∃ k blocks cols, find_best_key_size c 2 40 = some k ∧ 2 ≤ k ∧ k ≤ 40
      ∧ break_into_blocks c k = some blocks
      ∧ transpose_blocks blocks = some cols
      ∧ (find_repeating_key cols).length = min k c.length
      ∧ (∀ j, j < min k c.length →
          (find_repeating_key cols).getD j 0 = (single_byte_xor (cols.getD j [])).1)
      ∧ (2 ≤ c.length →
          (find_repeating_key cols).length = k
            ∧ 1 ≤ (find_repeating_key cols).length
            ∧ (find_repeating_key cols).length ≤ c.length) := by
  have hk : ∃ k, find_best_key_size c 2 40 = some k ∧ 2 ≤ k ∧ k ≤ 40
      ∧ (2 ≤ c.length → k ≤ c.length) := by
    by_cases hshort : c.length < 2 * 2
    · exact ⟨2, (find_best_key_size_of_short c 2 40 (by decide) (by decide) (by decide)
        hshort).2, le_refl _, by decide, fun h => h⟩
    · obtain ⟨k, hfind, hlo, hhi, hfit⟩ :=
        key_size_fits c 2 40 (by decide) (by decide) (by decide) (by decide) (by omega)
      exact ⟨k, hfind, hlo, hhi, fun _ => by omega⟩
  obtain ⟨k, hfind, hlo, hhi, hfit⟩ := hk
  obtain ⟨blocks, cols, out, hb, ht, hlen, hbytes, _, _⟩ :=
    stages_run c k (by omega) (by omega)
  refine ⟨k, blocks, cols, hfind, hlo, hhi, hb, ht, hlen, hbytes, ?_⟩
  intro h2
  have := hfit h2
  rw [hlen]
  omega

theorem key_length_spec_witness :
    ∃ k blocks cols, find_best_key_size [1, 2, 3, 4, 5, 6, 7, 8, 9, 10] 2 40 = some k
      ∧ 2 ≤ k ∧ k ≤ 40
      ∧ break_into_blocks [1, 2, 3, 4, 5, 6, 7, 8, 9, 10] k = some blocks
      ∧ transpose_blocks blocks = some cols
      ∧ (find_repeating_key cols).length = min k ([1, 2, 3, 4, 5, 6, 7, 8, 9, 10] : Str).length
      ∧ (∀ j, j < min k ([1, 2, 3, 4, 5, 6, 7, 8, 9, 10] : Str).length →
          (find_repeating_key cols).getD j 0 = (single_byte_xor (cols.getD j [])).1)
      ∧ (2 ≤ ([1, 2, 3, 4, 5, 6, 7, 8, 9, 10] : Str).length →
          (find_repeating_key cols).length = k
            ∧ 1 ≤ (find_repeating_key cols).length
            ∧ (find_repeating_key cols).length ≤ ([1, 2, 3, 4, 5, 6, 7, 8, 9, 10] : Str).length) :=
  key_length_spec [1, 2, 3, 4, 5, 6, 7, 8, 9, 10] (by decide)

/-- C12 as stated fails: for a ciphertext of one byte the key size is 2 and the
key has 1 byte; for the empty ciphertext the key size is 2 and the key is
empty. -/
theorem key_length_short :
    find_best_key_size [65] 2 40 = some 2
      ∧ break_into_blocks [65] 2 = some [[65]]
      ∧ transpose_blocks [[65]] = some [[65]]
      ∧ (find_repeating_key [[65]]).length = 1
      ∧ find_best_key_size [] 2 40 = some 2
      ∧ break_into_blocks [] 2 = some []
      ∧ transpose_blocks [] = some []
      ∧ (find_repeating_key []).length = 0 := by
  decide!

/-- C14, amended: for bounds `1 ≤ min_size ≤ max_size < 2^64 - 1` (the
default 2..40 included) and a ciphertext of fewer than `2 * min_size` bytes
with `len c + min_size ≤ 2^64` (by default: 0 to 3 bytes), the pipeline
`find_best_key_size`, `break_into_blocks`, `transpose_blocks`,
`find_repeating_key`, `decrypt` runs to completion without reaching an
undefined operation: no division or modulo by zero (the key is empty only for
the empty ciphertext), no index outside its container, no dereference of an
empty candidate list; the output has the length of the ciphertext. -/
theorem short_ciphertext_runs (c : Str) (min_size max_size : Nat)
    (h1 : 1 ≤ min_size) (h2 : min_size ≤ max_size) (hmax : max_size + 1 < 2 ^ 64)
    (hshort : c.length < 2 * min_size) (hfit : c.length + min_size ≤ 2 ^ 64) :
    ∃ blocks cols out, find_best_key_size c min_size max_size = some min_size
      ∧ break_into_blocks c min_size = some blocks
      ∧ transpose_blocks blocks = some cols
      ∧ (c ≠ [] → find_repeating_key cols ≠ [])
      ∧ decrypt c (find_repeating_key cols) = some out
      ∧ out.length = c.length := by
  obtain ⟨blocks, cols, out, hb, ht, hlen, _, hd, hout⟩ := stages_run c min_size h1 hfit
  refine ⟨blocks, cols, out,
    (find_best_key_size_of_short c min_size max_size h1 h2 hmax hshort).2, hb, ht, ?_, hd, hout⟩
  intro hne hkey
  rw [hkey] at hlen
  have : c.length ≠ 0 := fun h => hne (List.length_eq_zero.mp h)
  simp at hlen
  omega

theorem short_ciphertext_runs_witness :
    ∃ blocks cols out, find_best_key_size [72, 105, 33] 2 40 = some 2
      ∧ break_into_blocks [72, 105, 33] 2 = some blocks
      ∧ transpose_blocks blocks = some cols
      ∧ (([72, 105, 33] : Str) ≠ [] → find_repeating_key cols ≠ [])
      ∧ decrypt [72, 105, 33] (find_repeating_key cols) = some out
      ∧ out.length = ([72, 105, 33] : Str).length :=
  short_ciphertext_runs [72, 105, 33] 2 40 (by decide) (by decide) (by decide) (by decide)
    (by decide)

/-- C14 as stated fails: a ciphertext of three bytes is shorter than
`2 * min_size` for the bounds `min_size = max_size = 2^64 - 1`, where
`find_best_key_size` divides by zero (the counter of line 71 wraps to 0), and
for the bounds `min_size = max_size = 2^64 - 2`, where the key size `2^64 - 2`
is returned and `break_into_blocks` writes outside its vector (the sum of
line 85 wraps to 0). -/
theorem short_ciphertext_traps :
    ([1, 2, 3] : Str).length < 2 * 18446744073709551614
    ∧ find_best_key_size [1, 2, 3] 18446744073709551615 18446744073709551615 = none
    ∧ find_best_key_size [1, 2, 3] 18446744073709551614 18446744073709551614
        = some 18446744073709551614
    ∧ break_into_blocks [1, 2, 3] 18446744073709551614 = none := by
  decide!

/-- C11, amended: for every plaintext `P` of at least 30 bytes (a string held
in memory, so that `len P + 40 ≤ 2^64` and the sum of line 85 does not wrap),
with `C = decrypt P "ICE"`, `main` run on an input whose base64 decoding is `C`
completes with a key size `k` such that `2 ≤ k ≤ 40` and `2 k ≤ len P`, a key
of exactly `k` bytes and an output of `len P` bytes; `decrypt C "ICE"` is `P`,
so the output is `P` whenever the key found is "ICE".  (The key size need not
be 3; which key bytes are found is not stated here.) -/
theorem main_on_ice (P C input : Str) (hlen : 30 ≤ P.length) (hmem : P.length + 40 ≤ 2 ^ 64)
    (hC : decrypt P [73, 67, 69] = some C) (hin : base64_decode input = C) :
    ∃ k key out, main input = some (k, key, out)
      ∧ 2 ≤ k ∧ k ≤ 40 ∧ 2 * k ≤ P.length
      ∧ key.length = k
      ∧ out.length = P.length
      ∧ decrypt C [73, 67, 69] = some P
      ∧ (key = [73, 67, 69] → out = P) := by
  have hCl : C.length = P.length := (decrypt_getD P _ C (by decide) hC).1
  obtain ⟨k, hfind, hlo, hhi, hfit⟩ :=
    key_size_fits C 2 40 (by decide) (by decide) (by decide) (by decide) (by omega)
  obtain ⟨blocks, cols, out, hb, ht, hkl, _, hd, hout⟩ := stages_run C k (by omega) (by omega)
  have hback := decrypt_involutive P [73, 67, 69] C (by decide) hC
  refine ⟨k, find_repeating_key cols, out, ?_, hlo, hhi, by omega, ?_, by omega, hback, ?_⟩
  · unfold main
    rw [hin, hfind]
    simp only
    rw [hb]
    simp only
    rw [ht]
    simp only
    rw [hd]
  · rw [hkl]
    omega
  · intro hkey
    rw [hkey, hback] at hd
    exact (Option.some.inj hd).symm

set_option maxRecDepth 100000 in
theorem main_on_ice_witness :
    ∃ k key out, main example_base64 = some (k, key, out)
      ∧ 2 ≤ k ∧ k ≤ 40 ∧ 2 * k ≤ example_plaintext.length
      ∧ key.length = k
      ∧ out.length = example_plaintext.length
      ∧ decrypt example_ciphertext [73, 67, 69] = some example_plaintext
      ∧ (key = [73, 67, 69] → out = example_plaintext) :=
  main_on_ice example_plaintext example_ciphertext example_base64 (by decide) (by decide)
    (by decide) (by decide)

/-- C11 as stated fails: for the 31-byte plaintext
"Hi there. How are you? I am ok." encrypted with "ICE" and base64-encoded,
`main` reports the key size 9, a key that is not "ICE", and an output that is
not the plaintext. -/
theorem main_ice_example :
    30 ≤ example_plaintext.length
      ∧ decrypt example_plaintext [73, 67, 69] = some example_ciphertext
      ∧ base64_decode example_base64 = example_ciphertext
      ∧ main example_base64
          = some (9, [128, 128, 128, 128, 128, 128, 128, 32, 128],
              [129, 170, 229, 189, 171, 160, 187, 6, 235, 233, 139, 170, 190, 227, 164, 187, 6,
                229, 176, 172, 176, 246, 227, 140, 233, 2, 168, 233, 172, 174, 231]) := by
  decide!

end BreakKey
